import Mathlib

set_option maxHeartbeats 1000000

/-! Shallow embedding of the wasm.c in-memory representation core:
    text slices, the binding hash table (FNV-1a hashing, coalesced chaining
    with a doubly-linked free list and Brent-style relocation of displaced
    occupants), variable-reference resolution, module entity getters,
    type-binding concatenation, and the diagnostic memory dump.

    Pointers into the slot array are modelled as slot indices (`Option Nat`,
    `none` = NULL).  C `int` values are `Int`; byte values are `Nat` reduced
    mod 256 where the code reads them as `uint8_t`.  Out-of-bounds array
    accesses and NULL dereferences (undefined behaviour in C) are modelled
    by `Option`/`Except` failure. -/

/-- A WasmStringSlice: either a NULL `start` pointer, or the run of bytes
    `[start, start+length)`.  (A NULL slice has no readable bytes.) -/
inductive WasmStringSlice where
  | null : WasmStringSlice
  | str : List Nat → WasmStringSlice
deriving DecidableEq, Repr

/-- `wasm_string_slices_are_equal`: both starts non-NULL, lengths equal and
    bytes memcmp-equal. -/
def wasm_string_slices_are_equal (a b : WasmStringSlice) : Bool :=
  match a, b with
  | .str x, .str y => x = y
  | _, _ => false

/-- The bytes a slice points at (`[]` for a NULL slice). -/
def sliceBytes : WasmStringSlice → List Nat
  | .null => []
  | .str l => l

/-- One step of FNV-1a: hval ^= byte; hval *= 0x01000193 (32-bit). -/
def fnvStep (hval b : Nat) : Nat := ((hval ^^^ (b % 256)) * 0x01000193) % 2 ^ 32

/-- `wasm_hash_name`: 32-bit FNV-1a over the slice's bytes, offset basis
    0x811c9dc5, prime 0x01000193. -/
def wasm_hash_name (s : WasmStringSlice) : Nat :=
  (sliceBytes s).foldl fnvStep 0x811c9dc5

/-- WasmBinding: a name together with the resolved position index. -/
structure WasmBinding where
  name : WasmStringSlice
  index : Int
deriving DecidableEq, Repr

/-- One slot of the binding hash: a binding plus the forward collision-chain
    link and the backward free-list link (slot indices; `none` = NULL). -/
structure WasmBindingHashEntry where
  binding : WasmBinding
  next : Option Nat
  prev : Option Nat
deriving DecidableEq, Repr

instance : Inhabited WasmBindingHashEntry :=
  ⟨{ binding := { name := .null, index := 0 }, next := none, prev := none }⟩

/-- WasmBindingHash: the slot array (its length is the vector capacity), the
    vector's `size` field, and the head of the free list. -/
structure WasmBindingHash where
  entries : List WasmBindingHashEntry
  size : Nat
  free_head : Option Nat
deriving DecidableEq, Repr

/-- Read slot `i` (the C code only dereferences in-range pointers; reads out
    of range return the zeroed entry). -/
def getE (es : List WasmBindingHashEntry) (i : Nat) : WasmBindingHashEntry :=
  es.getD i default

/-- Update slot `i` in place. -/
def modE (es : List WasmBindingHashEntry) (i : Nat)
    (f : WasmBindingHashEntry → WasmBindingHashEntry) : List WasmBindingHashEntry :=
  es.set i (f (getE es i))

/-- `wasm_hash_entry_is_free`: a slot is free iff its binding's name has a
    NULL start pointer. -/
def wasm_hash_entry_is_free (e : WasmBindingHashEntry) : Bool :=
  match e.binding.name with
  | .null => true
  | .str _ => false

/-- The main slot index of a name: `wasm_hash_name(name) % capacity`. -/
def mainIdx (cap : Nat) (name : WasmStringSlice) : Nat :=
  wasm_hash_name name % cap

/-- A write through a possibly-NULL entry pointer: `if (p) p->field = v;`
    (`none` writes nothing). -/
def optModE (es : List WasmBindingHashEntry) (o : Option Nat)
    (f : WasmBindingHashEntry → WasmBindingHashEntry) : List WasmBindingHashEntry :=
  match o with
  | some n => modE es n f
  | none => es

/-- The predecessor walk in `wasm_hash_new_entry`:
    `while (other_entry->next != entry) other_entry = other_entry->next;`.
    Returns the slot whose `next` is `target`; `none` models the NULL
    dereference (or divergence) the C loop would hit on a malformed table. -/
def chainFindPred (es : List WasmBindingHashEntry) (target : Nat) :
    Nat → Nat → Option Nat
  | 0, _ => none
  | fuel + 1, cur =>
    match (getE es cur).next with
    | none => none
    | some nxt => if nxt = target then some cur else chainFindPred es target fuel nxt

/-- `wasm_hash_new_entry`: claim a slot for `name` and return it.
    If the main slot is free it is unlinked from the doubly-linked free list
    and used directly.  Otherwise the head of the free list is taken; if the
    occupant of the main slot is in its own main position the new entry is
    spliced in as the second element of that chain, and if not, the occupant
    is relocated into the free slot (its true predecessor's link repaired)
    and the new entry placed into the vacated main slot.  `none` models the
    failing `assert(hash->free_head)` / NULL dereference on a malformed
    table (never reached from the public entry points). -/
def wasm_hash_new_entry (h : WasmBindingHash) (name : WasmStringSlice) :
    Option (WasmBindingHash × Nat) :=
  if h.entries.length = 0 then none
  else
    let cap := h.entries.length
    let main := mainIdx cap name
    if wasm_hash_entry_is_free (getE h.entries main) then
      -- remove `main` from the doubly-linked free list
      let es1 := optModE h.entries (getE h.entries main).next
        (fun x => { x with prev := (getE h.entries main).prev })
      let es2 := optModE es1 (getE es1 main).prev
        (fun x => { x with next := (getE es1 main).next })
      let fh2 := match (getE es1 main).prev with
        | some _ => h.free_head
        | none => (getE es1 main).next
      let es3 := modE es2 main (fun x => { x with next := none })
      let es4 := modE es3 main
        (fun x => { x with binding := { name := name, index := 0 }, prev := none })
      some ({ entries := es4, size := h.size, free_head := fh2 }, main)
    else
      match h.free_head with
      | none => none
      | some f =>
        let fh2 := (getE h.entries f).next
        let es1 := optModE h.entries (getE h.entries f).next
          (fun x => { x with prev := none })
        let other := mainIdx cap (getE es1 main).binding.name
        if other = main then
          -- occupant is in its main position: splice in as second chain entry
          let es2 := modE es1 f (fun x => { x with next := (getE es1 main).next })
          let es3 := modE es2 main (fun x => { x with next := some f })
          let es4 := modE es3 f
            (fun x => { x with binding := { name := name, index := 0 }, prev := none })
          some ({ entries := es4, size := h.size, free_head := fh2 }, f)
        else
          -- occupant is displaced: move it to the free slot, repair its
          -- predecessor's link, and take over the main slot
          match chainFindPred es1 main cap other with
          | none => none
          | some pred =>
            let es2 := modE es1 pred (fun x => { x with next := some f })
            let es3 := es2.set f (getE es2 main)
            let es4 := modE es3 main (fun x => { x with next := none })
            let es5 := modE es4 main
              (fun x => { x with binding := { name := name, index := 0 }, prev := none })
            some ({ entries := es5, size := h.size, free_head := fh2 }, main)

/-- A fresh slot as `wasm_hash_resize` initialises it: name zeroed, linked
    into the free list built by pushing slots 0, 1, … onto the head. -/
def freshEntry (cap i : Nat) : WasmBindingHashEntry :=
  { binding := { name := .null, index := 0 },
    next := if i = 0 then none else some (i - 1),
    prev := if i = cap - 1 then none else some (i + 1) }

/-- `wasm_hash_resize`.  Modelled from the spec: the missing
    `wasm_reserve_binding_hash_entrys` (the DEFINE_VECTOR reserve in the
    repository's header, not under src/) "allocate[s] a new table of
    `new_capacity` slots"; allocation failure cannot occur in the model.
    The free list is built over all slots, every occupied entry of the old
    table is re-inserted in slot order via `wasm_hash_new_entry` with its
    binding copied, and the new hash replaces the old one (the vector's
    `size` field of the fresh hash is zero).  `desired = 0` would make the C
    code dereference a NULL `free_head`, hence `none`.
    `resizeReinsert` is the loop body: skip a free old slot, re-insert an
    occupied one and copy its binding into the claimed slot. -/
def resizeReinsert (nh : WasmBindingHash) (e : WasmBindingHashEntry) :
    Option WasmBindingHash :=
  if wasm_hash_entry_is_free e then pure nh
  else do
    let r ← wasm_hash_new_entry nh e.binding.name
    pure { r.1 with entries := modE r.1.entries r.2 (fun x => { x with binding := e.binding }) }

def wasm_hash_resize (h : WasmBindingHash) (desired : Nat) : Option WasmBindingHash :=
  if desired = 0 then none
  else
    h.entries.foldlM resizeReinsert
      { entries := (List.range desired).map (freshEntry desired),
        size := 0,
        free_head := some (desired - 1) }

/-- `wasm_insert_binding`: lazily initialise to capacity 8 on the first
    insert, double the capacity when the free list is exhausted, then claim
    a slot via `wasm_hash_new_entry`, bump the size and return the slot of
    the new (zeroed, name-set) binding. -/
def wasm_insert_binding (h : WasmBindingHash) (name : WasmStringSlice) :
    Option (WasmBindingHash × Nat) :=
  (if h.size = 0 then wasm_hash_resize h 8 else pure h).bind (fun h1 =>
  (if h1.free_head = none then wasm_hash_resize h1 (h1.entries.length * 2)
   else pure h1).bind (fun h2 =>
  (wasm_hash_new_entry h2 name).bind (fun r =>
  pure ({ r.1 with size := r.1.size + 1 }, r.2))))

/-- The caller-side idiom `wasm_insert_binding(hash, name)->index = idx`. -/
def insertBindingWithIndex (h : WasmBindingHash) (name : WasmStringSlice) (idx : Int) :
    Option WasmBindingHash :=
  (wasm_insert_binding h name).bind (fun r =>
    pure { r.1 with
            entries := modE r.1.entries r.2
              (fun x => { x with binding := { name := x.binding.name, index := idx } }) })

/-- The empty binding hash (zero-initialised struct). -/
def emptyHash : WasmBindingHash := { entries := [], size := 0, free_head := none }

/-- Insert a sequence of (name, index) bindings into an initially empty
    binding hash, each via the `wasm_insert_binding(...)->index = i` idiom. -/
def insertAllBindings (ops : List (WasmStringSlice × Int)) : Option WasmBindingHash :=
  ops.foldlM (fun h p => insertBindingWithIndex h p.1 p.2) emptyHash

/-- The chain walk of `find_binding_index_by_name`: a do-while that compares
    the current entry's name, then follows `next` while the successor is
    non-NULL and not free.  The fuel only bounds the walk where the C loop
    would cycle forever on a malformed table. -/
def find_binding_chain (es : List WasmBindingHashEntry) (name : WasmStringSlice) :
    Nat → Nat → Int
  | 0, _ => -1
  | fuel + 1, idx =>
    let e := getE es idx
    if wasm_string_slices_are_equal e.binding.name name then e.binding.index
    else
      match e.next with
      | none => -1
      | some nidx =>
        if wasm_hash_entry_is_free (getE es nidx) then -1
        else find_binding_chain es name fuel nidx

/-- `find_binding_index_by_name`: -1 on capacity 0, otherwise walk the chain
    from the name's main slot; -1 when no content-equal name is found. -/
def find_binding_index_by_name (h : WasmBindingHash) (name : WasmStringSlice) : Int :=
  if h.entries.length = 0 then -1
  else find_binding_chain h.entries name (h.entries.length + 1)
        (mainIdx h.entries.length name)

/-- WasmVar: a variable reference, either a textual name or a direct index. -/
inductive WasmVar where
  | name : WasmStringSlice → WasmVar
  | index : Int → WasmVar
deriving DecidableEq, Repr

/-- `wasm_get_index_from_var`: look a name up in the binding hash, pass an
    index through verbatim. -/
def wasm_get_index_from_var (h : WasmBindingHash) (v : WasmVar) : Int :=
  match v with
  | .name n => find_binding_index_by_name h n
  | .index i => i

/-- A C array access `data[index]` with an `int` index: defined exactly when
    the index is in range, `.error ()` models the out-of-bounds (undefined)
    access. -/
def cIndex (l : List Nat) (i : Int) : Except Unit Nat :=
  if 0 ≤ i ∧ i.toNat < l.length then .ok (l.getD i.toNat 0) else .error ()

/-- WasmModule: the flat entity vectors (entities as opaque ids, the vector
    of pointers) and the per-kind binding hashes used by the queries below. -/
structure WasmModule where
  funcs : List Nat
  func_types : List Nat
  imports : List Nat
  exports : List Nat
  func_bindings : WasmBindingHash
  func_type_bindings : WasmBindingHash
  import_bindings : WasmBindingHash
  export_bindings : WasmBindingHash
deriving DecidableEq, Repr

/-- `wasm_get_export_by_name`: resolve the name against the export bindings;
    -1 yields NULL, any other index is used to access the exports vector
    without a bounds check. -/
def wasm_get_export_by_name (m : WasmModule) (name : WasmStringSlice) :
    Except Unit (Option Nat) :=
  let index := find_binding_index_by_name m.export_bindings name
  if index = -1 then .ok none
  else (cIndex m.exports index).map some

/-- `wasm_get_func_by_var`: NULL when the resolved index is out of range,
    otherwise the funcs vector entry at that index. -/
def wasm_get_func_by_var (m : WasmModule) (v : WasmVar) : Except Unit (Option Nat) :=
  let index := wasm_get_index_from_var m.func_bindings v
  if index < 0 ∨ (m.funcs.length : Int) ≤ index then .ok none
  else (cIndex m.funcs index).map some

/-- `wasm_get_func_type_by_var`: as `wasm_get_func_by_var`, for func_types. -/
def wasm_get_func_type_by_var (m : WasmModule) (v : WasmVar) : Except Unit (Option Nat) :=
  let index := wasm_get_index_from_var m.func_type_bindings v
  if index < 0 ∨ (m.func_types.length : Int) ≤ index then .ok none
  else (cIndex m.func_types index).map some

/-- `wasm_get_import_by_var`: as `wasm_get_func_by_var`, for imports. -/
def wasm_get_import_by_var (m : WasmModule) (v : WasmVar) : Except Unit (Option Nat) :=
  let index := wasm_get_index_from_var m.import_bindings v
  if index < 0 ∨ (m.imports.length : Int) ≤ index then .ok none
  else (cIndex m.imports index).map some

/-- WasmTypeBindings: a type list (types as opaque ids) plus the binding
    hash naming positions in it. -/
structure WasmTypeBindings where
  types : List Nat
  bindings : WasmBindingHash
deriving DecidableEq, Repr

/-- `wasm_extend_type_bindings`.  The type-list append is `wasm_extend_types`,
    modelled from the spec ("appends src's type list onto dst's"; the
    DEFINE_VECTOR extend is in the repository's header, not under src/).
    Every occupied binding of `src` is re-inserted into `dst`'s hash under
    the same name with the index fixed up by the prior length of `dst`'s
    type list; a failed insertion aborts with the error result. -/
def extendReinsert (last_type : Int) (hsh : WasmBindingHash)
    (e : WasmBindingHashEntry) : Option WasmBindingHash :=
  if wasm_hash_entry_is_free e then pure hsh
  else (wasm_insert_binding hsh e.binding.name).bind (fun r =>
    pure { r.1 with
            entries := modE r.1.entries r.2
              (fun x => { x with
                binding := { name := e.binding.name,
                             index := e.binding.index + last_type } }) })

def wasm_extend_type_bindings (dst src : WasmTypeBindings) : Option WasmTypeBindings :=
  (src.bindings.entries.foldlM (extendReinsert dst.types.length) dst.bindings).bind
    (fun hash => pure { types := dst.types ++ src.types, bindings := hash })

/-- One hex digit (lower case), as printf %x renders it. -/
def hexDigitChar (n : Nat) : Char :=
  if n < 10 then Char.ofNat (48 + n) else Char.ofNat (87 + n)

/-- The hex digits of `n`, most significant first (empty for 0). -/
def hexDigits : Nat → Nat → List Char
  | 0, _ => []
  | fuel + 1, n => if n = 0 then [] else hexDigits fuel (n / 16) ++ [hexDigitChar (n % 16)]

/-- printf "%0*x": at least `width` digits, zero padded. -/
def toHexMin (n width : Nat) : String :=
  let ds := if n = 0 then ['0'] else hexDigits n n
  ⟨List.replicate (width - ds.length) '0' ++ ds⟩

/-- printf "%02x" of one byte. -/
def byteHex (b : Nat) : String := toHexMin (b % 256) 2

/-- The per-line byte groups of `wasm_print_memory`: 8 groups of 2 byte
    positions, each position rendered as two hex digits or two spaces past
    the end of the buffer, one space after each group. -/
def dumpGroups (data : List Nat) (l : Nat) : String :=
  String.join ((List.range 8).map (fun g =>
    String.join ((List.range 2).map (fun k =>
      let p := l + g * 2 + k
      if p < data.length then byteHex (data.getD p 0) else "  ")) ++ " "))

/-- isprint for a byte: 0x20 ≤ b ≤ 0x7e. -/
def isPrintByte (b : Nat) : Bool := 32 ≤ b % 256 && b % 256 ≤ 126

/-- The printable-character tail of one dump line (empty when `print_chars`
    is off; non-printable bytes render as '.'). -/
def dumpChars (data : List Nat) (l : Nat) (pc : Bool) : String :=
  String.join ((List.range 16).map (fun i =>
    if l + i < data.length ∧ pc = true then
      String.singleton (if isPrintByte (data.getD (l + i) 0)
                        then Char.ofNat ((data.getD (l + i) 0) % 256) else '.')
    else ""))

/-- One output line of `wasm_print_memory` for the 16-byte window starting
    at buffer offset `l`: the 7-hex-digit address (buffer offset plus the
    display offset, as the `int` printf argument), the byte groups, one
    extra space, the character rendering, and the description suffix when
    this line contains the last byte. -/
def wasm_print_memory_line (data : List Nat) (offset : Nat) (pc : Bool)
    (desc : Option String) (l : Nat) : String :=
  toHexMin ((l + offset) % 2 ^ 32) 7 ++ ": " ++ dumpGroups data l ++ " " ++
    dumpChars data l pc ++
    (if data.length ≤ l + 16 then
      (match desc with | some d => "  ; " ++ d | none => "")
     else "")

/-- The outer `while (p < end)` loop of `wasm_print_memory`, one emitted
    line per iteration, `p` advancing by 16. -/
def printMemoryFrom (data : List Nat) (offset : Nat) (pc : Bool)
    (desc : Option String) (p : Nat) : List String :=
  if _h : p < data.length then
    wasm_print_memory_line data offset pc desc p ::
      printMemoryFrom data offset pc desc (p + 16)
  else []
termination_by data.length - p
decreasing_by omega

/-- `wasm_print_memory`: the list of output lines (each line ends with the
    '\n' the code emits; newlines are implicit in the list structure). -/
def wasm_print_memory (data : List Nat) (offset : Nat) (pc : Bool)
    (desc : Option String) : List String :=
  printMemoryFrom data offset pc desc 0

/-! ### Abstractions used by the statements and invariants -/

/-- A slice usable as a binding name (non-NULL start). -/
def NonNullSlice (s : WasmStringSlice) : Prop := s ≠ .null

instance (s : WasmStringSlice) : Decidable (NonNullSlice s) :=
  inferInstanceAs (Decidable (s ≠ .null))

/-- The occupied bindings of a slot array, in slot order. -/
def bindingsList (es : List WasmBindingHashEntry) : List WasmBinding :=
  es.filterMap (fun e => if wasm_hash_entry_is_free e then none else some e.binding)

/-- The successor a list-segment element must link to: the head of the rest
    of the segment, or the given continuation. -/
def headO (l : List Nat) (nx : Option Nat) : Option Nat :=
  match l with
  | [] => nx
  | b :: _ => some b

/-- The accumulated predecessor after traversing a segment: its last
    element, or `pr` when it is empty. -/
def lastO : List Nat → Option Nat → Option Nat
  | [], pr => pr
  | a :: rest, _ => lastO rest (some a)

/-- Forward (`next`) linkage along a list of slots, ending in `nx`. -/
def NSeg (es : List WasmBindingHashEntry) : List Nat → Option Nat → Prop
  | [], _ => True
  | a :: rest, nx => (getE es a).next = headO rest nx ∧ NSeg es rest nx

/-- Doubly-linked (`next`/`prev`) linkage along a list of slots: previous
    link accumulator `pr`, terminal forward link `nx`. -/
def FSeg (es : List WasmBindingHashEntry) : Option Nat → List Nat → Option Nat → Prop
  | _, [], _ => True
  | pr, a :: rest, nx =>
    (getE es a).prev = pr ∧ (getE es a).next = headO rest nx ∧ FSeg es (some a) rest nx

/-- The free list is exactly the doubly-linked list `fl`: it starts at
    `free_head`, is duplicate-free, contains exactly the free in-range
    slots, and its `next`/`prev` links match. -/
def FreeListOk (es : List WasmBindingHashEntry) (fh : Option Nat) (fl : List Nat) : Prop :=
  fh = fl.head? ∧ fl.Nodup ∧
    (∀ i, i ∈ fl ↔ i < es.length ∧ wasm_hash_entry_is_free (getE es i) = true) ∧
    FSeg es none fl none

/-- `ch` is the collision chain rooted at main slot `m`: it starts at `m`,
    its forward links are consecutive and end in NULL, it has no duplicates,
    and each member is an in-range occupied entry whose name hashes to `m`. -/
def ChainAt (es : List WasmBindingHashEntry) (m : Nat) (ch : List Nat) : Prop :=
  ch.head? = some m ∧ NSeg es ch none ∧ ch.Nodup ∧
    ∀ i ∈ ch, i < es.length ∧ wasm_hash_entry_is_free (getE es i) = false ∧
      mainIdx es.length (getE es i).binding.name = m

/-- The structural invariant of a non-empty binding hash: positive capacity,
    a well-formed free list, and every occupied slot reachable in the chain
    of its own main slot. -/
structure HashInvPos (h : WasmBindingHash) : Prop where
  capPos : 0 < h.entries.length
  freeOk : ∃ fl, FreeListOk h.entries h.free_head fl
  chainsOk : ∀ j, j < h.entries.length →
    wasm_hash_entry_is_free (getE h.entries j) = false →
    ∃ ch, ChainAt h.entries (mainIdx h.entries.length (getE h.entries j).binding.name) ch ∧
      j ∈ ch

/-- A hash state is sound if it is the zero-initialised empty hash or
    satisfies the structural invariant with a positive size. -/
def HashOk (h : WasmBindingHash) : Prop :=
  h = emptyHash ∨ (HashInvPos h ∧ 0 < h.size)

/-- A binding hash reachable by some sequence of inserts from the empty
    hash (the only way the program builds one). -/
def ReachableHash (h : WasmBindingHash) : Prop :=
  ∃ ops : List (WasmStringSlice × Int),
    (∀ p ∈ ops, NonNullSlice p.1) ∧ insertAllBindings ops = some h

/-- The capacity a table has after `N` inserts: `8 * 2^(k-1)` after the
    `k`-th growth, where the first growth (initialisation to 8) happens at
    the first insert and every later one doubles on free-list exhaustion. -/
def CapOk (N cap : Nat) : Prop :=
  ∃ k, 0 < k ∧ cap = 8 * 2 ^ (k - 1) ∧ N ≤ cap ∧ (k = 1 ∨ 8 * 2 ^ (k - 2) < N)

/-- Scan a chain for the first content-equal name; the value
    `find_binding_index_by_name` computes on a well-formed table. -/
def scanChain (es : List WasmBindingHashEntry) (name : WasmStringSlice) :
    List Nat → Int
  | [] => -1
  | i :: rest =>
    if wasm_string_slices_are_equal (getE es i).binding.name name then
      (getE es i).binding.index
    else scanChain es name rest

/-! ### Concrete inputs used by witnesses and counterexamples -/

/-- Twenty pairwise-distinct one-byte names with indices 0..19; inserting
    them forces the capacity to grow 8 → 16 → 32. -/
def ops20 : List (WasmStringSlice × Int) :=
  (List.range 20).map (fun k => (.str [k], (k : Int)))

/-- A name that, not being bound, looks up as -1 below. -/
def missingName : WasmStringSlice := .str [200]

/-- Names [0] and [8] share main slot 7 in a capacity-8 table; inserting
    [8] twice with distinct indices exhibits the duplicate-name behaviour. -/
def dupOps : List (WasmStringSlice × Int) := [(.str [0], 10), (.str [8], 1), (.str [8], 2)]

/-! ### Basic facts about slot access and update -/

theorem length_modE (es : List WasmBindingHashEntry) (i : Nat)
    (f : WasmBindingHashEntry → WasmBindingHashEntry) :
    (modE es i f).length = es.length := by
  simp [modE]

theorem getE_set_self : ∀ (es : List WasmBindingHashEntry) (i : Nat)
    (e : WasmBindingHashEntry), i < es.length → getE (es.set i e) i = e := by
  intro es
  induction es with
  | nil => intro i e h; simp at h
  | cons a t ih =>
    intro i e h
    cases i with
    | zero => simp [getE]
    | succ n =>
      have := ih n e (by simpa using h)
      simpa [getE, List.set] using this

theorem getE_set_ne : ∀ (es : List WasmBindingHashEntry) (i : Nat)
    (e : WasmBindingHashEntry) (j : Nat), j ≠ i → getE (es.set i e) j = getE es j := by
  intro es
  induction es with
  | nil => intro i e j _; simp [getE, List.set]
  | cons a t ih =>
    intro i e j hne
    cases i with
    | zero =>
      cases j with
      | zero => exact absurd rfl hne
      | succ n => simp [getE, List.set]
    | succ m =>
      cases j with
      | zero => simp [getE, List.set]
      | succ n =>
        have := ih m e n (by intro hc; exact hne (by simp [hc]))
        simpa [getE, List.set] using this

theorem getE_oob (es : List WasmBindingHashEntry) (i : Nat)
    (h : es.length ≤ i) : getE es i = default := by
  simp [getE, List.getD, List.getElem?_eq_none h]

theorem getE_eq_getElem (es : List WasmBindingHashEntry) (i : Nat)
    (h : i < es.length) : getE es i = es[i] := by
  simp [getE, List.getD, List.getElem?_eq_getElem h]

theorem getE_mem (es : List WasmBindingHashEntry) (i : Nat)
    (h : i < es.length) : getE es i ∈ es := by
  rw [getE_eq_getElem es i h]
  exact List.getElem_mem h

theorem getE_modE_self (es : List WasmBindingHashEntry) (i : Nat)
    (f : WasmBindingHashEntry → WasmBindingHashEntry) (h : i < es.length) :
    getE (modE es i f) i = f (getE es i) := by
  simp [modE, getE_set_self es i _ h]

theorem getE_modE_ne (es : List WasmBindingHashEntry) (i : Nat)
    (f : WasmBindingHashEntry → WasmBindingHashEntry) (j : Nat) (h : j ≠ i) :
    getE (modE es i f) j = getE es j := by
  simp [modE, getE_set_ne es i _ j h]

/-! ### Basic facts about slice equality and hashing -/

theorem sliceEq_null_left (s : WasmStringSlice) :
    wasm_string_slices_are_equal .null s = false := by
  cases s <;> rfl

theorem sliceEq_null_right (s : WasmStringSlice) :
    wasm_string_slices_are_equal s .null = false := by
  cases s <;> rfl

theorem sliceEq_str_iff (x y : List Nat) :
    wasm_string_slices_are_equal (.str x) (.str y) = true ↔ x = y := by
  simp [wasm_string_slices_are_equal]

theorem sliceEq_refl (s : WasmStringSlice) (h : NonNullSlice s) :
    wasm_string_slices_are_equal s s = true := by
  cases s with
  | null => exact absurd rfl h
  | str x => simp [sliceEq_str_iff]

theorem sliceEq_symm (a b : WasmStringSlice) :
    wasm_string_slices_are_equal a b = wasm_string_slices_are_equal b a := by
  cases a <;> cases b <;> first | rfl | (simp only [wasm_string_slices_are_equal]; exact decide_eq_decide.mpr eq_comm)

theorem sliceEq_eq (a b : WasmStringSlice) (h : wasm_string_slices_are_equal a b = true) :
    a = b := by
  cases a <;> cases b <;> simp_all [wasm_string_slices_are_equal]

theorem sliceEq_hash (a b : WasmStringSlice)
    (h : wasm_string_slices_are_equal a b = true) :
    wasm_hash_name a = wasm_hash_name b := by
  rw [sliceEq_eq a b h]

theorem sliceEq_nonnull_left (a b : WasmStringSlice)
    (h : wasm_string_slices_are_equal a b = true) : NonNullSlice a := by
  cases a with
  | null => simp [sliceEq_null_left] at h
  | str x => intro hc; exact WasmStringSlice.noConfusion hc

theorem isFree_false_iff (e : WasmBindingHashEntry) :
    wasm_hash_entry_is_free e = false ↔ NonNullSlice e.binding.name := by
  cases hn : e.binding.name <;> simp [wasm_hash_entry_is_free, hn, NonNullSlice]

theorem isFree_true_iff (e : WasmBindingHashEntry) :
    wasm_hash_entry_is_free e = true ↔ e.binding.name = .null := by
  cases hn : e.binding.name <;> simp [wasm_hash_entry_is_free, hn]

theorem default_entry_free : wasm_hash_entry_is_free (default : WasmBindingHashEntry) = true := rfl

theorem default_entry_name : (default : WasmBindingHashEntry).binding.name = .null := rfl

/-! ### The occupied-bindings view -/

theorem isFree_congr (e1 e2 : WasmBindingHashEntry) (h : e1.binding = e2.binding) :
    wasm_hash_entry_is_free e1 = wasm_hash_entry_is_free e2 := by
  simp [wasm_hash_entry_is_free, h]

theorem mem_bindingsList (es : List WasmBindingHashEntry) (b : WasmBinding) :
    b ∈ bindingsList es ↔
      ∃ e ∈ es, wasm_hash_entry_is_free e = false ∧ e.binding = b := by
  simp only [bindingsList, List.mem_filterMap]
  constructor
  · rintro ⟨e, he, hf⟩
    rcases hfree : wasm_hash_entry_is_free e with _ | _
    · simp [hfree] at hf
      exact ⟨e, he, hfree, hf⟩
    · simp [hfree] at hf
  · rintro ⟨e, he, hocc, hb⟩
    exact ⟨e, he, by simp [hocc, hb]⟩

theorem bindingsList_cons_free (a : WasmBindingHashEntry) (t : List WasmBindingHashEntry)
    (h : wasm_hash_entry_is_free a = true) : bindingsList (a :: t) = bindingsList t := by
  simp [bindingsList, h]

theorem bindingsList_cons_occ (a : WasmBindingHashEntry) (t : List WasmBindingHashEntry)
    (h : wasm_hash_entry_is_free a = false) :
    bindingsList (a :: t) = a.binding :: bindingsList t := by
  simp [bindingsList, h]

theorem bindingsList_set_free :
    ∀ (es : List WasmBindingHashEntry) (i : Nat) (e2 : WasmBindingHashEntry),
      i < es.length → wasm_hash_entry_is_free (getE es i) = true →
      wasm_hash_entry_is_free e2 = false →
      (bindingsList (es.set i e2)).Perm (e2.binding :: bindingsList es) := by
  intro es
  induction es with
  | nil => intro i e2 h; simp at h
  | cons a t ih =>
    intro i e2 hi hfree hocc
    cases i with
    | zero =>
      have ha : wasm_hash_entry_is_free a = true := by simpa [getE] using hfree
      simp [List.set, bindingsList_cons_free a t ha, bindingsList_cons_occ e2 t hocc]
    | succ n =>
      have hfree2 : wasm_hash_entry_is_free (getE t n) = true := by
        simpa [getE] using hfree
      have hrec := ih n e2 (by simpa using hi) hfree2 hocc
      rcases ha : wasm_hash_entry_is_free a with _ | _
      · rw [List.set_cons_succ, bindingsList_cons_occ a _ ha, bindingsList_cons_occ a t ha]
        exact (hrec.cons a.binding).trans (List.Perm.swap e2.binding a.binding _)
      · rw [List.set_cons_succ, bindingsList_cons_free a _ ha, bindingsList_cons_free a t ha]
        exact hrec

theorem bindingsList_set_occ :
    ∀ (es : List WasmBindingHashEntry) (i : Nat) (e2 : WasmBindingHashEntry),
      i < es.length → wasm_hash_entry_is_free (getE es i) = false →
      wasm_hash_entry_is_free e2 = false →
      ∃ T D, bindingsList es = T ++ (getE es i).binding :: D ∧
             bindingsList (es.set i e2) = T ++ e2.binding :: D := by
  intro es
  induction es with
  | nil => intro i e2 h; simp at h
  | cons a t ih =>
    intro i e2 hi hocc1 hocc2
    cases i with
    | zero =>
      have ha : wasm_hash_entry_is_free a = false := by simpa [getE] using hocc1
      refine ⟨[], bindingsList t, ?_, ?_⟩
      · simp [bindingsList_cons_occ a t ha, getE]
      · simp [List.set, bindingsList_cons_occ e2 t hocc2]
    | succ n =>
      have hocc1' : wasm_hash_entry_is_free (getE t n) = false := by
        simpa [getE] using hocc1
      obtain ⟨T, D, h1, h2⟩ := ih n e2 (by simpa using hi) hocc1' hocc2
      have hget : getE (a :: t) (n + 1) = getE t n := by simp [getE]
      rcases ha : wasm_hash_entry_is_free a with _ | _
      · refine ⟨a.binding :: T, D, ?_, ?_⟩
        · rw [bindingsList_cons_occ a t ha, h1, hget]; rfl
        · rw [List.set_cons_succ, bindingsList_cons_occ a _ ha, h2]; rfl
      · refine ⟨T, D, ?_, ?_⟩
        · rw [bindingsList_cons_free a t ha, h1, hget]
        · rw [List.set_cons_succ, bindingsList_cons_free a _ ha, h2]

theorem bindingsList_set_binding_eq :
    ∀ (es : List WasmBindingHashEntry) (i : Nat) (e2 : WasmBindingHashEntry),
      e2.binding = (getE es i).binding →
      bindingsList (es.set i e2) = bindingsList es := by
  intro es
  induction es with
  | nil => intro i e2 _; rfl
  | cons a t ih =>
    intro i e2 hb
    cases i with
    | zero =>
      have hb' : e2.binding = a.binding := by simpa [getE] using hb
      have hfr := isFree_congr e2 a hb'
      rcases ha : wasm_hash_entry_is_free a with _ | _
      · rw [List.set_cons_zero, bindingsList_cons_occ a t ha,
          bindingsList_cons_occ e2 t (by rw [hfr, ha]), hb']
      · rw [List.set_cons_zero, bindingsList_cons_free a t ha,
          bindingsList_cons_free e2 t (by rw [hfr, ha])]
    | succ n =>
      have hb' : e2.binding = (getE t n).binding := by simpa [getE] using hb
      rcases ha : wasm_hash_entry_is_free a with _ | _
      · rw [List.set_cons_succ, bindingsList_cons_occ a _ ha,
          bindingsList_cons_occ a t ha, ih n e2 hb']
      · rw [List.set_cons_succ, bindingsList_cons_free a _ ha,
          bindingsList_cons_free a t ha, ih n e2 hb']

theorem bindingsList_modE_link (es : List WasmBindingHashEntry) (i : Nat)
    (f : WasmBindingHashEntry → WasmBindingHashEntry)
    (hf : ∀ e, (f e).binding = e.binding) :
    bindingsList (modE es i f) = bindingsList es :=
  bindingsList_set_binding_eq es i _ (hf (getE es i))

/-! ### The lookup walk, without structural assumptions -/

theorem find_chain_succ (es : List WasmBindingHashEntry) (name : WasmStringSlice)
    (fuel idx : Nat) :
    find_binding_chain es name (fuel + 1) idx =
      if wasm_string_slices_are_equal (getE es idx).binding.name name then
        (getE es idx).binding.index
      else
        match (getE es idx).next with
        | none => -1
        | some nidx =>
          if wasm_hash_entry_is_free (getE es nidx) then -1
          else find_binding_chain es name fuel nidx := rfl

theorem find_chain_no_match (es : List WasmBindingHashEntry) (name : WasmStringSlice)
    (hno : ∀ e ∈ es, wasm_string_slices_are_equal e.binding.name name = false) :
    ∀ fuel idx, find_binding_chain es name fuel idx = -1 := by
  intro fuel
  induction fuel with
  | zero => intro idx; rfl
  | succ n ih =>
    intro idx
    have hcur : wasm_string_slices_are_equal (getE es idx).binding.name name = false := by
      by_cases hlt : idx < es.length
      · exact hno _ (getE_mem es idx hlt)
      · rw [getE_oob es idx (le_of_not_lt hlt)]
        exact sliceEq_null_left name
    rw [find_chain_succ, if_neg (by simp [hcur])]
    cases hnext : (getE es idx).next with
    | none => rfl
    | some nidx =>
      rcases hfr : wasm_hash_entry_is_free (getE es nidx) with _ | _
      · simpa [hfr] using ih nidx
      · simp [hfr]

theorem find_chain_sound (es : List WasmBindingHashEntry) (name : WasmStringSlice) :
    ∀ fuel idx, find_binding_chain es name fuel idx = -1 ∨
      ∃ e ∈ es, wasm_hash_entry_is_free e = false ∧
        wasm_string_slices_are_equal e.binding.name name = true ∧
        e.binding.index = find_binding_chain es name fuel idx := by
  intro fuel
  induction fuel with
  | zero => intro idx; left; rfl
  | succ n ih =>
    intro idx
    by_cases hcur : wasm_string_slices_are_equal (getE es idx).binding.name name = true
    · right
      have hlt : idx < es.length := by
        by_contra hge
        rw [getE_oob es idx (le_of_not_lt hge), default_entry_name] at hcur
        simp [sliceEq_null_left] at hcur
      refine ⟨getE es idx, getE_mem es idx hlt, ?_, hcur, ?_⟩
      · rw [isFree_false_iff]
        exact sliceEq_nonnull_left _ _ hcur
      · rw [find_chain_succ, if_pos (by simp [hcur])]
    · have hcur' : wasm_string_slices_are_equal (getE es idx).binding.name name = false := by
        simpa using hcur
      rw [find_chain_succ, if_neg (by simp [hcur'])]
      cases hnext : (getE es idx).next with
      | none => left; rfl
      | some nidx =>
        rcases hfr : wasm_hash_entry_is_free (getE es nidx) with _ | _
        · simpa [hfr] using ih nidx
        · simp [hfr]

theorem find_no_match (h : WasmBindingHash) (name : WasmStringSlice)
    (hno : ∀ e ∈ h.entries, wasm_string_slices_are_equal e.binding.name name = false) :
    find_binding_index_by_name h name = -1 := by
  unfold find_binding_index_by_name
  split
  · rfl
  · exact find_chain_no_match h.entries name hno _ _

theorem find_sound (h : WasmBindingHash) (name : WasmStringSlice) :
    find_binding_index_by_name h name = -1 ∨
      ∃ e ∈ h.entries, wasm_hash_entry_is_free e = false ∧
        wasm_string_slices_are_equal e.binding.name name = true ∧
        e.binding.index = find_binding_index_by_name h name := by
  unfold find_binding_index_by_name
  split
  · left; rfl
  · exact find_chain_sound h.entries name _ _

/-! ### Linked segments: decomposition and congruence -/

theorem headO_nil (nx : Option Nat) : headO [] nx = nx := rfl

theorem headO_cons (b : Nat) (l : List Nat) (nx : Option Nat) :
    headO (b :: l) nx = some b := rfl

theorem headO_append (xs ys : List Nat) (nx : Option Nat) :
    headO (xs ++ ys) nx = headO xs (headO ys nx) := by
  cases xs <;> rfl

theorem lastO_nil (pr : Option Nat) : lastO [] pr = pr := rfl

theorem lastO_cons (a : Nat) (l : List Nat) (pr : Option Nat) :
    lastO (a :: l) pr = lastO l (some a) := rfl

theorem NSeg_nil (es : List WasmBindingHashEntry) (nx : Option Nat) :
    NSeg es [] nx := trivial

theorem NSeg_cons (es : List WasmBindingHashEntry) (a : Nat) (rest : List Nat)
    (nx : Option Nat) :
    NSeg es (a :: rest) nx ↔ (getE es a).next = headO rest nx ∧ NSeg es rest nx :=
  Iff.rfl

theorem NSeg_append (es : List WasmBindingHashEntry) :
    ∀ (xs ys : List Nat) (nx : Option Nat),
      NSeg es (xs ++ ys) nx ↔ NSeg es xs (headO ys nx) ∧ NSeg es ys nx := by
  intro xs
  induction xs with
  | nil => intro ys nx; simp [NSeg_nil, NSeg]
  | cons a t ih =>
    intro ys nx
    rw [List.cons_append, NSeg_cons, NSeg_cons, headO_append, ih, and_assoc]

theorem NSeg_congr (es es2 : List WasmBindingHashEntry) (ch : List Nat)
    (nx : Option Nat)
    (hsame : ∀ i ∈ ch, (getE es2 i).next = (getE es i).next) :
    NSeg es ch nx → NSeg es2 ch nx := by
  induction ch with
  | nil => intro; trivial
  | cons a t ih =>
    intro hn
    rw [NSeg_cons] at hn ⊢
    exact ⟨(hsame a (by simp)).trans hn.1, ih (fun i hi => hsame i (by simp [hi])) hn.2⟩

theorem FSeg_nil (es : List WasmBindingHashEntry) (pr nx : Option Nat) :
    FSeg es pr [] nx := trivial

theorem FSeg_cons (es : List WasmBindingHashEntry) (pr : Option Nat) (a : Nat)
    (rest : List Nat) (nx : Option Nat) :
    FSeg es pr (a :: rest) nx ↔
      (getE es a).prev = pr ∧ (getE es a).next = headO rest nx ∧
        FSeg es (some a) rest nx :=
  Iff.rfl

theorem FSeg_append (es : List WasmBindingHashEntry) :
    ∀ (xs : List Nat) (pr : Option Nat) (ys : List Nat) (nx : Option Nat),
      FSeg es pr (xs ++ ys) nx ↔
        FSeg es pr xs (headO ys nx) ∧ FSeg es (lastO xs pr) ys nx := by
  intro xs
  induction xs with
  | nil => intro pr ys nx; simp [FSeg_nil, lastO_nil, FSeg]
  | cons a t ih =>
    intro pr ys nx
    rw [List.cons_append, FSeg_cons, FSeg_cons, headO_append, ih, lastO_cons, and_assoc,
      and_assoc]

theorem FSeg_congr (es es2 : List WasmBindingHashEntry) (ch : List Nat)
    (hsame : ∀ i ∈ ch, (getE es2 i).next = (getE es i).next ∧
      (getE es2 i).prev = (getE es i).prev) :
    ∀ (pr nx : Option Nat), FSeg es pr ch nx → FSeg es2 pr ch nx := by
  induction ch with
  | nil => intro pr nx _; trivial
  | cons a t ih =>
    intro pr nx hn
    rw [FSeg_cons] at hn ⊢
    refine ⟨(hsame a (by simp)).2.trans hn.1, (hsame a (by simp)).1.trans hn.2.1, ?_⟩
    exact ih (fun i hi => hsame i (by simp [hi])) _ _ hn.2.2

theorem FSeg_NSeg (es : List WasmBindingHashEntry) :
    ∀ (ch : List Nat) (pr nx : Option Nat), FSeg es pr ch nx → NSeg es ch nx := by
  intro ch
  induction ch with
  | nil => intro pr nx _; trivial
  | cons a t ih =>
    intro pr nx hn
    rw [FSeg_cons] at hn
    exact ⟨hn.2.1, ih _ _ hn.2.2⟩

/-! ### Chains and the lookup walk on a well-formed table -/

theorem nodup_bounded_length (ch : List Nat) (n : Nat) (hnd : ch.Nodup)
    (hlt : ∀ i ∈ ch, i < n) : ch.length ≤ n := by
  classical
  have h1 : ch.toFinset.card = ch.length := List.toFinset_card_of_nodup hnd
  have h2 : ch.toFinset ⊆ Finset.range n := by
    intro i hi
    rw [List.mem_toFinset] at hi
    exact Finset.mem_range.mpr (hlt i hi)
  have h3 := Finset.card_le_card h2
  simpa [h1, Finset.card_range] using h3

theorem scanChain_cons (es : List WasmBindingHashEntry) (name : WasmStringSlice)
    (i : Nat) (rest : List Nat) :
    scanChain es name (i :: rest) =
      if wasm_string_slices_are_equal (getE es i).binding.name name then
        (getE es i).binding.index
      else scanChain es name rest := rfl

theorem find_chain_eq_scan :
    ∀ (ch : List Nat) (es : List WasmBindingHashEntry) (name : WasmStringSlice)
      (fuel a : Nat), ch.head? = some a → NSeg es ch none →
      (∀ i ∈ ch, wasm_hash_entry_is_free (getE es i) = false) →
      ch.length ≤ fuel →
      find_binding_chain es name fuel a = scanChain es name ch := by
  intro ch
  induction ch with
  | nil => intro es name fuel a hh; simp at hh
  | cons b t ih =>
    intro es name fuel a hh hseg hocc hlen
    have hba : b = a := by simpa using hh
    subst hba
    obtain ⟨fuel2, rfl⟩ : ∃ n2, fuel = n2 + 1 := ⟨fuel - 1, by simp at hlen; omega⟩
    rw [find_chain_succ, scanChain_cons]
    by_cases heq : wasm_string_slices_are_equal (getE es b).binding.name name = true
    · rw [if_pos (by simp [heq]), if_pos (by simp [heq])]
    · have heq2 : wasm_string_slices_are_equal (getE es b).binding.name name = false := by
        simpa using heq
      rw [if_neg (by simp [heq2]), if_neg (by simp [heq2])]
      rw [NSeg_cons] at hseg
      cases t with
      | nil => rw [hseg.1]; rfl
      | cons c r =>
        rw [hseg.1]
        have hcfr : wasm_hash_entry_is_free (getE es c) = false := hocc c (by simp)
        rw [headO_cons]
        simp only [hcfr, Bool.false_eq_true, if_false]
        exact ih es name fuel2 c rfl hseg.2
          (fun i hi => hocc i (by simp [hi])) (by simp at hlen ⊢; omega)

theorem scanChain_found :
    ∀ (ch : List Nat) (es : List WasmBindingHashEntry) (name : WasmStringSlice),
      (∃ i ∈ ch, wasm_string_slices_are_equal (getE es i).binding.name name = true) →
      ∃ i ∈ ch, wasm_string_slices_are_equal (getE es i).binding.name name = true ∧
        scanChain es name ch = (getE es i).binding.index := by
  intro ch
  induction ch with
  | nil => intro es name h; simp at h
  | cons b t ih =>
    intro es name hex
    by_cases heq : wasm_string_slices_are_equal (getE es b).binding.name name = true
    · exact ⟨b, by simp, heq, by rw [scanChain_cons, if_pos (by simp [heq])]⟩
    · have heq2 : wasm_string_slices_are_equal (getE es b).binding.name name = false := by
        simpa using heq
      obtain ⟨i, hi, hieq⟩ := hex
      have hit : i ∈ t := by
        rcases List.mem_cons.mp hi with rfl | hit
        · exact absurd hieq heq
        · exact hit
      obtain ⟨i2, hi2, hieq2, hscan⟩ := ih es name ⟨i, hit, hieq⟩
      exact ⟨i2, by simp [hi2], hieq2,
        by rw [scanChain_cons, if_neg (by simp [heq2])]; exact hscan⟩

theorem find_complete_pos (h : WasmBindingHash) (inv : HashInvPos h)
    (name : WasmStringSlice) (j : Nat) (hj : j < h.entries.length)
    (hocc : wasm_hash_entry_is_free (getE h.entries j) = false)
    (heq : wasm_string_slices_are_equal (getE h.entries j).binding.name name = true) :
    ∃ i, i < h.entries.length ∧
      wasm_hash_entry_is_free (getE h.entries i) = false ∧
      wasm_string_slices_are_equal (getE h.entries i).binding.name name = true ∧
      find_binding_index_by_name h name = (getE h.entries i).binding.index := by
  obtain ⟨ch, hch, hjch⟩ := inv.chainsOk j hj hocc
  have hname : (getE h.entries j).binding.name = name := sliceEq_eq _ _ heq
  obtain ⟨hh, hseg, hnd, hmem⟩ := hch
  have hc := inv.capPos
  have hlen : ch.length ≤ h.entries.length :=
    nodup_bounded_length ch _ hnd (fun i hi => (hmem i hi).1)
  have hmain : mainIdx h.entries.length name =
      mainIdx h.entries.length (getE h.entries j).binding.name := by rw [hname]
  have hfind : find_binding_index_by_name h name = scanChain h.entries name ch := by
    unfold find_binding_index_by_name
    rw [if_neg (by omega), hmain]
    exact find_chain_eq_scan ch h.entries name _ _ hh hseg
      (fun i hi => (hmem i hi).2.1) (by omega)
  obtain ⟨i, hi, hieq, hscan⟩ := scanChain_found ch h.entries name ⟨j, hjch, heq⟩
  exact ⟨i, (hmem i hi).1, (hmem i hi).2.1, hieq, by rw [hfind, hscan]⟩

/-! ### More support: optional writes, heads and lasts -/

theorem set_oob (es : List WasmBindingHashEntry) (i : Nat) (e : WasmBindingHashEntry)
    (h : es.length ≤ i) : es.set i e = es :=
  List.set_eq_of_length_le h

theorem getE_optModE_ne (es : List WasmBindingHashEntry) (o : Option Nat)
    (f : WasmBindingHashEntry → WasmBindingHashEntry) (i : Nat) (h : o ≠ some i) :
    getE (optModE es o f) i = getE es i := by
  cases o with
  | none => rfl
  | some n =>
    exact getE_modE_ne es n f i (by intro hc; exact h (by rw [hc]))

theorem getE_optModE_self (es : List WasmBindingHashEntry) (n : Nat)
    (f : WasmBindingHashEntry → WasmBindingHashEntry) (h : n < es.length) :
    getE (optModE es (some n) f) n = f (getE es n) :=
  getE_modE_self es n f h

theorem length_optModE (es : List WasmBindingHashEntry) (o : Option Nat)
    (f : WasmBindingHashEntry → WasmBindingHashEntry) :
    (optModE es o f).length = es.length := by
  cases o <;> simp [optModE, modE]

theorem bindingsList_optModE_link (es : List WasmBindingHashEntry) (o : Option Nat)
    (f : WasmBindingHashEntry → WasmBindingHashEntry)
    (hf : ∀ e, (f e).binding = e.binding) :
    bindingsList (optModE es o f) = bindingsList es := by
  cases o with
  | none => rfl
  | some n => exact bindingsList_modE_link es n f hf

theorem head?_eq_headO (l : List Nat) : l.head? = headO l none := by
  cases l <;> rfl

theorem headO_irrel (l : List Nat) (hne : l ≠ []) (x y : Option Nat) :
    headO l x = headO l y := by
  cases l with
  | nil => exact absurd rfl hne
  | cons a t => rfl

theorem headO_none_iff (l : List Nat) : headO l none = none ↔ l = [] := by
  cases l <;> simp [headO]

theorem lastO_concat (l : List Nat) (p : Nat) :
    ∀ pr, lastO (l ++ [p]) pr = some p := by
  induction l with
  | nil => intro pr; rfl
  | cons a t ih => intro pr; rw [List.cons_append, lastO_cons]; exact ih _

theorem lastO_mem : ∀ (l : List Nat) (x : Nat), lastO l none = some x → x ∈ l := by
  intro l
  induction l with
  | nil => intro x hx; simp [lastO] at hx
  | cons a t ih =>
    intro x hx
    rw [lastO_cons] at hx
    cases t with
    | nil =>
      simp [lastO] at hx
      simp [hx]
    | cons b r =>
      rw [lastO_cons] at hx
      have : x ∈ b :: r := by
        rw [← lastO_cons b r (some b)] at hx
        exact ih x (by rw [lastO_cons] at hx ⊢; exact hx)
      simp [List.mem_cons.mp this]

theorem NSeg_none_unique (es : List WasmBindingHashEntry) :
    ∀ (ch1 ch2 : List Nat), NSeg es ch1 none → NSeg es ch2 none →
      ch1.head? = ch2.head? → ch1 = ch2 := by
  intro ch1
  induction ch1 with
  | nil =>
    intro ch2 _ _ hh
    cases ch2 with
    | nil => rfl
    | cons b t => simp at hh
  | cons a t1 ih =>
    intro ch2 h1 h2 hh
    cases ch2 with
    | nil => simp at hh
    | cons b t2 =>
      have hab : a = b := by simpa using hh
      subst hab
      rw [NSeg_cons] at h1 h2
      have hnext : headO t1 none = headO t2 none := h1.1.symm.trans h2.1
      cases t1 with
      | nil =>
        cases t2 with
        | nil => rfl
        | cons c r => simp [headO] at hnext
      | cons c r =>
        cases t2 with
        | nil => simp [headO] at hnext
        | cons d q =>
          have hcd : c = d := by simpa [headO] using hnext
          subst hcd
          rw [ih (c :: q) h1.2 h2.2 rfl]

theorem ChainAt_unique (es : List WasmBindingHashEntry) (m : Nat) (ch1 ch2 : List Nat)
    (h1 : ChainAt es m ch1) (h2 : ChainAt es m ch2) : ch1 = ch2 :=
  NSeg_none_unique es ch1 ch2 h1.2.1 h2.2.1 (h1.1.trans h2.1.symm)

theorem chainFindPred_correct :
    ∀ (P : List Nat) (es : List WasmBindingHashEntry) (m : Nat) (S : List Nat)
      (fuel a : Nat),
      NSeg es ((a :: P) ++ m :: S) none → m ∉ a :: P → P.length < fuel →
      chainFindPred es m fuel a = lastO (a :: P) none := by
  intro P
  induction P with
  | nil =>
    intro es m S fuel a hseg hm hf
    obtain ⟨fuel2, rfl⟩ : ∃ n2, fuel = n2 + 1 := ⟨fuel - 1, by omega⟩
    rw [List.cons_append, NSeg_cons] at hseg
    have hnext : (getE es a).next = some m := by
      rw [hseg.1]; rfl
    unfold chainFindPred
    rw [hnext]
    simp [lastO]
  | cons b t ih =>
    intro es m S fuel a hseg hm hf
    obtain ⟨fuel2, rfl⟩ : ∃ n2, fuel = n2 + 1 := ⟨fuel - 1, by omega⟩
    rw [List.cons_append, NSeg_cons] at hseg
    have hnext : (getE es a).next = some b := by
      rw [hseg.1]; rfl
    have hbm : b ≠ m := by
      intro hc
      exact hm (by simp [hc])
    unfold chainFindPred
    rw [hnext]
    simp only [hbm, if_false]
    rw [lastO_cons]
    have := ih es m S fuel2 b hseg.2 (by intro hc; exact hm (by simp [List.mem_cons.mp hc]))
      (by simp at hf; omega)
    rw [this]
    exact (lastO_cons b t (some a)).symm

/-! ### Raw per-branch unfoldings of `wasm_hash_new_entry` -/

theorem new_entry_unfold_free (h : WasmBindingHash) (name : WasmStringSlice)
    (hne0 : ¬ h.entries.length = 0)
    (hfree : wasm_hash_entry_is_free (getE h.entries (mainIdx h.entries.length name)) = true) :
    wasm_hash_new_entry h name =
      some ({ entries :=
                modE (modE (optModE (optModE h.entries (getE h.entries (mainIdx h.entries.length name)).next
                    (fun x => { x with prev := (getE h.entries (mainIdx h.entries.length name)).prev }))
                  (getE (optModE h.entries (getE h.entries (mainIdx h.entries.length name)).next
                    (fun x => { x with prev := (getE h.entries (mainIdx h.entries.length name)).prev }))
                    (mainIdx h.entries.length name)).prev
                  (fun x => { x with next := (getE (optModE h.entries (getE h.entries (mainIdx h.entries.length name)).next
                    (fun x => { x with prev := (getE h.entries (mainIdx h.entries.length name)).prev }))
                    (mainIdx h.entries.length name)).next }))
                  (mainIdx h.entries.length name) (fun x => { x with next := none }))
                  (mainIdx h.entries.length name)
                  (fun x => { x with binding := { name := name, index := 0 }, prev := none }),
              size := h.size,
              free_head :=
                match (getE (optModE h.entries (getE h.entries (mainIdx h.entries.length name)).next
                    (fun x => { x with prev := (getE h.entries (mainIdx h.entries.length name)).prev }))
                    (mainIdx h.entries.length name)).prev with
                | some _ => h.free_head
                | none => (getE (optModE h.entries (getE h.entries (mainIdx h.entries.length name)).next
                    (fun x => { x with prev := (getE h.entries (mainIdx h.entries.length name)).prev }))
                    (mainIdx h.entries.length name)).next },
        mainIdx h.entries.length name) := by
  unfold wasm_hash_new_entry
  rw [if_neg hne0, if_pos hfree]

theorem new_entry_unfold_splice (h : WasmBindingHash) (name : WasmStringSlice) (f : Nat)
    (hne0 : ¬ h.entries.length = 0)
    (hocc : wasm_hash_entry_is_free (getE h.entries (mainIdx h.entries.length name)) = false)
    (hfh : h.free_head = some f)
    (hother : mainIdx h.entries.length
        (getE (optModE h.entries (getE h.entries f).next (fun x => { x with prev := none }))
          (mainIdx h.entries.length name)).binding.name = mainIdx h.entries.length name) :
    wasm_hash_new_entry h name =
      some ({ entries :=
                modE (modE (modE (optModE h.entries (getE h.entries f).next
                      (fun x => { x with prev := none }))
                    f
                    (fun x => { x with next := (getE (optModE h.entries (getE h.entries f).next
                      (fun x => { x with prev := none })) (mainIdx h.entries.length name)).next }))
                  (mainIdx h.entries.length name) (fun x => { x with next := some f }))
                  f (fun x => { x with binding := { name := name, index := 0 }, prev := none }),
              size := h.size,
              free_head := (getE h.entries f).next },
        f) := by
  unfold wasm_hash_new_entry
  rw [if_neg hne0, if_neg (by simp [hocc]), hfh]
  simp only [if_pos hother]

theorem new_entry_unfold_reloc (h : WasmBindingHash) (name : WasmStringSlice) (f pred : Nat)
    (hne0 : ¬ h.entries.length = 0)
    (hocc : wasm_hash_entry_is_free (getE h.entries (mainIdx h.entries.length name)) = false)
    (hfh : h.free_head = some f)
    (hother : ¬ mainIdx h.entries.length
        (getE (optModE h.entries (getE h.entries f).next (fun x => { x with prev := none }))
          (mainIdx h.entries.length name)).binding.name = mainIdx h.entries.length name)
    (hpred : chainFindPred
        (optModE h.entries (getE h.entries f).next (fun x => { x with prev := none }))
        (mainIdx h.entries.length name) h.entries.length
        (mainIdx h.entries.length
          (getE (optModE h.entries (getE h.entries f).next (fun x => { x with prev := none }))
            (mainIdx h.entries.length name)).binding.name) = some pred) :
    wasm_hash_new_entry h name =
      some ({ entries :=
                modE (modE ((modE (optModE h.entries (getE h.entries f).next
                      (fun x => { x with prev := none }))
                    pred (fun x => { x with next := some f })).set f
                    (getE (modE (optModE h.entries (getE h.entries f).next
                      (fun x => { x with prev := none }))
                      pred (fun x => { x with next := some f })) (mainIdx h.entries.length name)))
                  (mainIdx h.entries.length name) (fun x => { x with next := none }))
                  (mainIdx h.entries.length name)
                  (fun x => { x with binding := { name := name, index := 0 }, prev := none }),
              size := h.size,
              free_head := (getE h.entries f).next },
        mainIdx h.entries.length name) := by
  unfold wasm_hash_new_entry
  rw [if_neg hne0, if_neg (by simp [hocc]), hfh]
  simp only [if_neg hother]
  rw [hpred]

theorem modE_oob (es : List WasmBindingHashEntry) (i : Nat)
    (f : WasmBindingHashEntry → WasmBindingHashEntry) (h : es.length ≤ i) :
    modE es i f = es :=
  set_oob es i _ h

theorem getE_optModE_binding (es : List WasmBindingHashEntry) (o : Option Nat)
    (f : WasmBindingHashEntry → WasmBindingHashEntry) (i : Nat)
    (hf : ∀ e, (f e).binding = e.binding) :
    (getE (optModE es o f) i).binding = (getE es i).binding := by
  cases o with
  | none => rfl
  | some n =>
    by_cases hin : i = n
    · subst hin
      by_cases hlt : i < es.length
      · show (getE (modE es i f) i).binding = _
        rw [getE_modE_self es i f hlt]
        exact hf _
      · show (getE (modE es i f) i).binding = _
        rw [modE_oob es i f (le_of_not_lt hlt)]
    · exact congrArg WasmBindingHashEntry.binding
        (getE_optModE_ne es _ f i (by simp; exact fun hc => hin hc.symm))

theorem getE_optModE_next (es : List WasmBindingHashEntry) (o : Option Nat)
    (f : WasmBindingHashEntry → WasmBindingHashEntry) (i : Nat)
    (hf : ∀ e, (f e).next = e.next) :
    (getE (optModE es o f) i).next = (getE es i).next := by
  cases o with
  | none => rfl
  | some n =>
    by_cases hin : i = n
    · subst hin
      by_cases hlt : i < es.length
      · show (getE (modE es i f) i).next = _
        rw [getE_modE_self es i f hlt]
        exact hf _
      · show (getE (modE es i f) i).next = _
        rw [modE_oob es i f (le_of_not_lt hlt)]
    · exact congrArg WasmBindingHashEntry.next
        (getE_optModE_ne es _ f i (by simp; exact fun hc => hin hc.symm))

theorem headO_mem (l : List Nat) (x : Nat) (h : headO l none = some x) : x ∈ l := by
  cases l with
  | nil => simp [headO] at h
  | cons a t =>
    have : a = x := by simpa [headO] using h
    simp [this]

theorem lastO_some (l : List Nat) (a : Nat) : ∀ pr, ∃ p, lastO (a :: l) pr = some p := by
  induction l generalizing a with
  | nil => intro pr; exact ⟨a, rfl⟩
  | cons b r ih =>
    intro pr
    rw [lastO_cons]
    exact ih b (some a)

theorem getE_optModE_prev_binding (es : List WasmBindingHashEntry) (o : Option Nat)
    (pr : Option Nat) (i : Nat) :
    (getE (optModE es o (fun x => { x with prev := pr })) i).binding =
      (getE es i).binding :=
  getE_optModE_binding es o (fun x => { x with prev := pr }) i (fun _ => rfl)

theorem getE_optModE_next_binding (es : List WasmBindingHashEntry) (o : Option Nat)
    (nx : Option Nat) (i : Nat) :
    (getE (optModE es o (fun x => { x with next := nx })) i).binding =
      (getE es i).binding :=
  getE_optModE_binding es o (fun x => { x with next := nx }) i (fun _ => rfl)

theorem getE_optModE_prev_next (es : List WasmBindingHashEntry) (o : Option Nat)
    (pr : Option Nat) (i : Nat) :
    (getE (optModE es o (fun x => { x with prev := pr })) i).next =
      (getE es i).next :=
  getE_optModE_next es o (fun x => { x with prev := pr }) i (fun _ => rfl)

theorem bindingsList_optModE_prev (es : List WasmBindingHashEntry) (o : Option Nat)
    (pr : Option Nat) :
    bindingsList (optModE es o (fun x => { x with prev := pr })) = bindingsList es :=
  bindingsList_optModE_link es o (fun x => { x with prev := pr }) (fun _ => rfl)

theorem bindingsList_optModE_next (es : List WasmBindingHashEntry) (o : Option Nat)
    (nx : Option Nat) :
    bindingsList (optModE es o (fun x => { x with next := nx })) = bindingsList es :=
  bindingsList_optModE_link es o (fun x => { x with next := nx }) (fun _ => rfl)

theorem bindingsList_modE_next (es : List WasmBindingHashEntry) (i : Nat)
    (nx : Option Nat) :
    bindingsList (modE es i (fun x => { x with next := nx })) = bindingsList es :=
  bindingsList_modE_link es i (fun x => { x with next := nx }) (fun _ => rfl)

/-- What `wasm_hash_new_entry` does when the main slot is free: claims the
    main slot, unlinks it from the free list (which loses exactly that
    slot), and leaves every other slot's binding — and every forward link
    other than the free-list predecessor's — unchanged. -/
theorem new_entry_spec_free (h : WasmBindingHash) (name : WasmStringSlice)
    (A B : List Nat)
    (hnn : NonNullSlice name)
    (hcap : 0 < h.entries.length)
    (hfl : FreeListOk h.entries h.free_head (A ++ mainIdx h.entries.length name :: B))
    (hfree : wasm_hash_entry_is_free (getE h.entries (mainIdx h.entries.length name)) = true) :
    ∃ es4 fh2,
      wasm_hash_new_entry h name =
        some ({ entries := es4, size := h.size, free_head := fh2 },
          mainIdx h.entries.length name) ∧
      es4.length = h.entries.length ∧
      getE es4 (mainIdx h.entries.length name) =
        { binding := { name := name, index := 0 }, next := none, prev := none } ∧
      (∀ i, i ≠ mainIdx h.entries.length name →
        (getE es4 i).binding = (getE h.entries i).binding) ∧
      (∀ i, i ≠ mainIdx h.entries.length name → lastO A none ≠ some i →
        (getE es4 i).next = (getE h.entries i).next) ∧
      FreeListOk es4 fh2 (A ++ B) ∧
      (bindingsList es4).Perm ({ name := name, index := 0 } :: bindingsList h.entries) := by
  obtain ⟨hfh, hnd, hmemiff, hfseg⟩ := hfl
  set m := mainIdx h.entries.length name with hmdef
  set es := h.entries with hesdef
  rw [List.nodup_append] at hnd
  obtain ⟨hndA, hndmB, hdisj⟩ := hnd
  have hmA : m ∉ A := fun hc => (hdisj hc) (by simp)
  have hmB : m ∉ B := (List.nodup_cons.mp hndmB).1
  have hndB : B.Nodup := (List.nodup_cons.mp hndmB).2
  rw [FSeg_append] at hfseg
  obtain ⟨hFA, hFmB⟩ := hfseg
  rw [headO_cons] at hFA
  rw [FSeg_cons] at hFmB
  obtain ⟨hmp, hmn, hFB⟩ := hFmB
  have hmlt : m < es.length := Nat.mod_lt _ hcap
  have hBm : headO B none ≠ some m := by
    intro hc
    exact hmB (headO_mem B m hc)
  have hAm : lastO A none ≠ some m := by
    intro hc
    exact hmA (lastO_mem A m hc)
  have hmnnem : (getE es m).next ≠ some m := by rw [hmn]; exact hBm
  have hes1m : getE (optModE es (getE es m).next
      (fun x => { x with prev := (getE es m).prev })) m = getE es m :=
    getE_optModE_ne _ _ _ _ hmnnem
  have heq := new_entry_unfold_free h name (by rw [← hesdef]; omega) hfree
  rw [hes1m, hmp, hmn] at heq
  -- name the intermediate slot arrays
  set E1 := optModE es (headO B none) (fun x => { x with prev := lastO A none }) with hE1
  set E2 := optModE E1 (lastO A none) (fun x => { x with next := headO B none }) with hE2
  set E3 := modE E2 m (fun x => { x with next := none }) with hE3
  set E4 := modE E3 m
    (fun x => { x with binding := { name := name, index := 0 }, prev := none }) with hE4
  have hlen1 : E1.length = es.length := length_optModE _ _ _
  have hlen2 : E2.length = es.length := (length_optModE _ _ _).trans hlen1
  have hlen3 : E3.length = es.length := (length_modE _ _ _).trans hlen2
  have hlen4 : E4.length = es.length := (length_modE _ _ _).trans hlen3
  have hE2m : getE E2 m = getE es m := by
    rw [hE2, getE_optModE_ne _ _ _ _ hAm, hE1, getE_optModE_ne _ _ _ _ hBm]
  have hE3m : getE E3 m = { getE es m with next := none } := by
    rw [hE3, getE_modE_self _ _ _ (by rw [hlen2]; exact hmlt), hE2m]
  have hE4m : getE E4 m =
      { binding := { name := name, index := 0 }, next := none, prev := none } := by
    rw [hE4, getE_modE_self _ _ _ (by rw [hlen3]; exact hmlt), hE3m]
  have hbind : ∀ i, i ≠ m → (getE E4 i).binding = (getE es i).binding := by
    intro i him
    rw [hE4, getE_modE_ne _ _ _ _ him, hE3, getE_modE_ne _ _ _ _ him, hE2]
    rw [getE_optModE_next_binding, hE1, getE_optModE_prev_binding]
  have hnext : ∀ i, i ≠ m → lastO A none ≠ some i →
      (getE E4 i).next = (getE es i).next := by
    intro i him hip
    rw [hE4, getE_modE_ne _ _ _ _ him, hE3, getE_modE_ne _ _ _ _ him, hE2,
      getE_optModE_ne _ _ _ _ hip, hE1, getE_optModE_prev_next]
  have hsame : ∀ i, i ≠ m → lastO A none ≠ some i → headO B none ≠ some i →
      getE E4 i = getE es i := by
    intro i him hip hin
    rw [hE4, getE_modE_ne _ _ _ _ him, hE3, getE_modE_ne _ _ _ _ him, hE2,
      getE_optModE_ne _ _ _ _ hip, hE1, getE_optModE_ne _ _ _ _ hin]
  have hnpoint : ∀ n2, headO B none = some n2 →
      getE E4 n2 = { getE es n2 with prev := lastO A none } := by
    intro n2 hn2
    have hn2B : n2 ∈ B := headO_mem B n2 hn2
    have hn2m : n2 ≠ m := fun hc => hmB (hc ▸ hn2B)
    have hn2p : lastO A none ≠ some n2 := by
      intro hc
      exact (hdisj (lastO_mem A n2 hc)) (by simp [hn2B])
    have hn2lt : n2 < es.length :=
      ((hmemiff n2).mp (by simp [hn2B])).1
    rw [hE4, getE_modE_ne _ _ _ _ hn2m, hE3, getE_modE_ne _ _ _ _ hn2m, hE2,
      getE_optModE_ne _ _ _ _ hn2p, hE1, hn2, getE_optModE_self _ _ _ hn2lt]
  have hppoint : ∀ p2, lastO A none = some p2 →
      getE E4 p2 = { getE es p2 with next := headO B none } := by
    intro p2 hp2
    have hp2A : p2 ∈ A := lastO_mem A p2 hp2
    have hp2m : p2 ≠ m := fun hc => hmA (hc ▸ hp2A)
    have hp2n : headO B none ≠ some p2 := by
      intro hc
      exact (hdisj hp2A) (by simp [headO_mem B p2 hc])
    have hp2lt : p2 < es.length := ((hmemiff p2).mp (by simp [hp2A])).1
    have hE1p : getE E1 p2 = getE es p2 := by
      rw [hE1, getE_optModE_ne _ _ _ _ hp2n]
    rw [hE4, getE_modE_ne _ _ _ _ hp2m, hE3, getE_modE_ne _ _ _ _ hp2m, hE2, hp2,
      getE_optModE_self _ _ _ (by rw [hlen1]; exact hp2lt), hE1p]
  -- the free list after the unlink
  have hfl4 : FreeListOk E4 (match lastO A none with
      | some _ => h.free_head
      | none => headO B none) (A ++ B) := by
    refine ⟨?_, ?_, ?_, ?_⟩
    · cases hA : A with
      | nil => simp [lastO_nil, head?_eq_headO]
      | cons a A2 =>
        obtain ⟨p2, hp2⟩ := lastO_some A2 a none
        rw [hp2]
        rw [hA] at hfh
        simpa using hfh
    · have hsub : (A ++ B).Sublist (A ++ m :: B) :=
        (List.sublist_cons_self m B).append_left A
      exact hsub.nodup (by rw [List.nodup_append]; exact ⟨hndA, hndmB, hdisj⟩)
    · intro i
      constructor
      · intro hi
        have hiAB : i ∈ A ∨ i ∈ B := List.mem_append.mp hi
        have him : i ≠ m := by
          rcases hiAB with hiA | hiB
          · exact fun hc => hmA (hc ▸ hiA)
          · exact fun hc => hmB (hc ▸ hiB)
        have hifl : i ∈ A ++ m :: B := by
          rcases hiAB with hiA | hiB
          · exact List.mem_append.mpr (Or.inl hiA)
          · exact List.mem_append.mpr (Or.inr (by simp [hiB]))
        obtain ⟨hilt, hifree⟩ := (hmemiff i).mp hifl
        refine ⟨by rw [hlen4]; exact hilt, ?_⟩
        rw [isFree_congr _ _ (hbind i him)]
        exact hifree
      · rintro ⟨hilt, hifree⟩
        have him : i ≠ m := by
          intro hc
          rw [hc, isFree_true_iff, hE4m] at hifree
          exact hnn hifree
        have hifree0 : wasm_hash_entry_is_free (getE es i) = true := by
          rw [← isFree_congr _ _ (hbind i him)]
          exact hifree
        have hifl : i ∈ A ++ m :: B :=
          (hmemiff i).mpr ⟨by rw [← hlen4]; exact hilt, hifree0⟩
        rcases List.mem_append.mp hifl with hiA | himB
        · exact List.mem_append.mpr (Or.inl hiA)
        · rcases List.mem_cons.mp himB with hc | hiB
          · exact absurd hc him
          · exact List.mem_append.mpr (Or.inr hiB)
    · rw [FSeg_append]
      constructor
      · rcases List.eq_nil_or_concat A with hA | ⟨Ai, p2, hA⟩
        · rw [hA]; exact FSeg_nil _ _ _
        · rw [List.concat_eq_append] at hA
          subst hA
          have hp2 : lastO (Ai ++ [p2]) none = some p2 := lastO_concat Ai p2 none
          rw [FSeg_append] at hFA
          obtain ⟨hFAi, hFp⟩ := hFA
          rw [headO_cons] at hFAi
          rw [FSeg_cons] at hFp
          obtain ⟨hp2prev, hp2next, _⟩ := hFp
          have hndAi : p2 ∉ Ai := by
            rw [List.nodup_append] at hndA
            exact fun hc => (hndA.2.2 hc) (by simp)
          rw [FSeg_append]
          refine ⟨?_, ?_⟩
          · rw [headO_cons]
            refine FSeg_congr es E4 Ai ?_ none (some p2) hFAi
            intro i hi
            have hiA : i ∈ Ai ++ [p2] := by simp [hi]
            have him : i ≠ m := fun hc => hmA (hc ▸ hiA)
            have hip : lastO (Ai ++ [p2]) none ≠ some i := by
              rw [hp2]
              intro hc
              rw [Option.some_inj] at hc
              rw [hc] at hndAi
              exact hndAi hi
            have hin : headO B none ≠ some i := by
              intro hc
              exact (hdisj hiA) (by simp [headO_mem B i hc])
            rw [hsame i him hip hin]
            exact ⟨rfl, rfl⟩
          · rw [FSeg_cons]
            have hgp := hppoint p2 hp2
            refine ⟨?_, ?_, FSeg_nil _ _ _⟩
            · rw [hgp]
              exact hp2prev
            · rw [hgp]
              rfl
      · cases hB : B with
        | nil => exact FSeg_nil _ _ _
        | cons n2 B2 =>
          rw [hB] at hFB
          rw [FSeg_cons] at hFB
          obtain ⟨hn2prev, hn2next, hFB2⟩ := hFB
          have hgn := hnpoint n2 (by rw [hB]; rfl)
          rw [FSeg_cons]
          refine ⟨by rw [hgn], ?_, ?_⟩
          · rw [hgn]
            show (getE es n2).next = headO B2 none
            exact hn2next
          · refine FSeg_congr es E4 B2 ?_ (some n2) none hFB2
            intro i hi
            have hiB : i ∈ B := by rw [hB]; simp [hi]
            have him : i ≠ m := fun hc => hmB (hc ▸ hiB)
            have hip : lastO A none ≠ some i := by
              intro hc
              exact (hdisj (lastO_mem A i hc)) (by simp [hiB])
            have hin : headO B none ≠ some i := by
              rw [hB, headO_cons]
              intro hc
              have : n2 = i := by simpa using hc
              have hndn2 : n2 ∉ B2 := (List.nodup_cons.mp (hB ▸ hndB)).1
              exact hndn2 (this ▸ hi)
            rw [hsame i him hip hin]
            exact ⟨rfl, rfl⟩
  -- the multiset of bindings gains exactly the new binding
  have hperm : (bindingsList E4).Perm
      ({ name := name, index := 0 } :: bindingsList es) := by
    have h3 : bindingsList E3 = bindingsList es := by
      rw [hE3, bindingsList_modE_next, hE2, bindingsList_optModE_next, hE1,
        bindingsList_optModE_prev]
    have hfree3 : wasm_hash_entry_is_free (getE E3 m) = true := by
      rw [isFree_true_iff, hE3m]
      rw [isFree_true_iff] at hfree
      exact hfree
    have hocc4 : wasm_hash_entry_is_free
        ((fun x => { x with binding := { name := name, index := 0 }, prev := none })
          (getE E3 m)) = false := by
      rw [isFree_false_iff]
      exact hnn
    have h4 := bindingsList_set_free E3 m _ (by rw [hlen3]; exact hmlt) hfree3 hocc4
    rw [h3] at h4
    exact h4
  exact ⟨E4, _, heq, hlen4, hE4m, hbind, hnext, hfl4, hperm⟩

theorem getE_optModE_prev_proj (es : List WasmBindingHashEntry) (o : Option Nat)
    (f : WasmBindingHashEntry → WasmBindingHashEntry) (i : Nat)
    (hf : ∀ e, (f e).prev = e.prev) :
    (getE (optModE es o f) i).prev = (getE es i).prev := by
  cases o with
  | none => rfl
  | some n =>
    by_cases hin : i = n
    · subst hin
      by_cases hlt : i < es.length
      · show (getE (modE es i f) i).prev = _
        rw [getE_modE_self es i f hlt]
        exact hf _
      · show (getE (modE es i f) i).prev = _
        rw [modE_oob es i f (le_of_not_lt hlt)]
    · exact congrArg WasmBindingHashEntry.prev
        (getE_optModE_ne es _ f i (by simp; exact fun hc => hin hc.symm))

theorem getE_modE_next_binding (es : List WasmBindingHashEntry) (i : Nat)
    (nx : Option Nat) (j : Nat) :
    (getE (modE es i (fun x => { x with next := nx })) j).binding =
      (getE es j).binding :=
  getE_optModE_next_binding es (some i) nx j

theorem getE_modE_next_prev (es : List WasmBindingHashEntry) (i : Nat)
    (nx : Option Nat) (j : Nat) :
    (getE (modE es i (fun x => { x with next := nx })) j).prev =
      (getE es j).prev :=
  getE_optModE_prev_proj es (some i) (fun x => { x with next := nx }) j (fun _ => rfl)

theorem getE_modE_setbp_next (es : List WasmBindingHashEntry) (i : Nat)
    (b : WasmBinding) (j : Nat) :
    (getE (modE es i (fun x => { x with binding := b, prev := none })) j).next =
      (getE es j).next :=
  getE_optModE_next es (some i) (fun x => { x with binding := b, prev := none }) j
    (fun _ => rfl)

theorem isFree_congr_name (e1 e2 : WasmBindingHashEntry)
    (h : e1.binding.name = e2.binding.name) :
    wasm_hash_entry_is_free e1 = wasm_hash_entry_is_free e2 := by
  simp [wasm_hash_entry_is_free, h]

theorem ChainAt_preserved (es es2 : List WasmBindingHashEntry) (r : Nat)
    (ch : List Nat) (hlen : es2.length = es.length) (hch : ChainAt es r ch)
    (hnx : ∀ i ∈ ch, (getE es2 i).next = (getE es i).next)
    (hbd : ∀ i ∈ ch, (getE es2 i).binding.name = (getE es i).binding.name) :
    ChainAt es2 r ch := by
  obtain ⟨hh, hseg, hnd, hmem⟩ := hch
  refine ⟨hh, NSeg_congr es es2 ch none hnx hseg, hnd, ?_⟩
  intro i hi
  obtain ⟨h1, h2, h3⟩ := hmem i hi
  refine ⟨by rw [hlen]; exact h1, ?_, ?_⟩
  · rw [isFree_congr_name _ _ (hbd i hi)]
    exact h2
  · rw [hlen, hbd i hi]
    exact h3

theorem ChainAt_singleton (es : List WasmBindingHashEntry) (m : Nat)
    (hm : m < es.length)
    (hocc : wasm_hash_entry_is_free (getE es m) = false)
    (hmain : mainIdx es.length (getE es m).binding.name = m)
    (hnext : (getE es m).next = none) : ChainAt es m [m] := by
  refine ⟨rfl, ⟨hnext, trivial⟩, List.nodup_singleton m, ?_⟩
  intro i hi
  have him : i = m := by simpa using hi
  subst him
  exact ⟨hm, hocc, hmain⟩

/-- Whenever some occupied entry's name hashes to `q`, the occupant of slot
    `q` itself is occupied and hashes to `q` (the root of a chain is always
    in its own main position). -/
theorem root_occupied (h : WasmBindingHash) (inv : HashInvPos h) (j : Nat)
    (hj : j < h.entries.length)
    (hocc : wasm_hash_entry_is_free (getE h.entries j) = false) :
    wasm_hash_entry_is_free
        (getE h.entries (mainIdx h.entries.length (getE h.entries j).binding.name)) = false ∧
      mainIdx h.entries.length
        (getE h.entries (mainIdx h.entries.length (getE h.entries j).binding.name)).binding.name =
        mainIdx h.entries.length (getE h.entries j).binding.name := by
  obtain ⟨ch, hch, _⟩ := inv.chainsOk j hj hocc
  obtain ⟨hh, _, _, hmem⟩ := hch
  have hq : mainIdx h.entries.length (getE h.entries j).binding.name ∈ ch := by
    cases hc : ch with
    | nil => rw [hc] at hh; simp at hh
    | cons a t =>
      rw [hc] at hh
      have ha : a = mainIdx h.entries.length (getE h.entries j).binding.name := by
        simpa using hh
      rw [← ha]
      simp
  exact ⟨(hmem _ hq).2.1, (hmem _ hq).2.2⟩

/-- What `wasm_hash_new_entry` does on a collision whose occupant is in its
    own main position: the head of the free list is spliced in as the second
    element of the main slot's chain and receives the new binding. -/
theorem new_entry_spec_splice (h : WasmBindingHash) (name : WasmStringSlice)
    (f : Nat) (B : List Nat)
    (hnn : NonNullSlice name)
    (hcap : 0 < h.entries.length)
    (hfl : FreeListOk h.entries h.free_head (f :: B))
    (hocc : wasm_hash_entry_is_free (getE h.entries (mainIdx h.entries.length name)) = false)
    (hroot : mainIdx h.entries.length
        (getE h.entries (mainIdx h.entries.length name)).binding.name =
      mainIdx h.entries.length name) :
    ∃ es4,
      wasm_hash_new_entry h name =
        some ({ entries := es4, size := h.size, free_head := headO B none }, f) ∧
      es4.length = h.entries.length ∧
      getE es4 f = { binding := { name := name, index := 0 },
                     next := (getE h.entries (mainIdx h.entries.length name)).next,
                     prev := none } ∧
      getE es4 (mainIdx h.entries.length name) =
        { getE h.entries (mainIdx h.entries.length name) with next := some f } ∧
      (∀ i, i ≠ f → (getE es4 i).binding = (getE h.entries i).binding) ∧
      (∀ i, i ≠ f → i ≠ mainIdx h.entries.length name →
        (getE es4 i).next = (getE h.entries i).next) ∧
      (∀ i, i ≠ f → i ≠ mainIdx h.entries.length name → headO B none ≠ some i →
        getE es4 i = getE h.entries i) ∧
      FreeListOk es4 (headO B none) B ∧
      (bindingsList es4).Perm ({ name := name, index := 0 } :: bindingsList h.entries) := by
  obtain ⟨hfh, hnd, hmemiff, hfseg⟩ := hfl
  set m := mainIdx h.entries.length name with hmdef
  set es := h.entries with hesdef
  have hndB : B.Nodup := (List.nodup_cons.mp hnd).2
  have hfB : f ∉ B := (List.nodup_cons.mp hnd).1
  rw [FSeg_cons] at hfseg
  obtain ⟨hfprev, hfnext, hFB⟩ := hfseg
  have hmlt : m < es.length := Nat.mod_lt _ hcap
  have hffree : wasm_hash_entry_is_free (getE es f) = true :=
    ((hmemiff f).mp (by simp)).1 |> fun _ => ((hmemiff f).mp (by simp)).2
  have hflt : f < es.length := ((hmemiff f).mp (by simp)).1
  have hmf : m ≠ f := by
    intro hc
    rw [hc, hffree] at hocc
    exact Bool.true_eq_false.mp hocc
  have hmB : m ∉ B := by
    intro hc
    have := ((hmemiff m).mp (by simp [hc])).2
    rw [this] at hocc
    exact Bool.true_eq_false.mp hocc
  have hBm : headO B none ≠ some m := fun hc => hmB (headO_mem B m hc)
  have hBf : headO B none ≠ some f := fun hc => hfB (headO_mem B f hc)
  have hes1m : getE (optModE es (getE es f).next
      (fun x => { x with prev := none })) m = getE es m := by
    rw [hfnext]
    exact getE_optModE_ne _ _ _ _ hBm
  have heq := new_entry_unfold_splice h name f (by rw [← hesdef]; omega) hocc hfh
    (by rw [hes1m]; exact hroot)
  rw [hes1m, hfnext] at heq
  set E1 := optModE es (headO B none) (fun x => { x with prev := none }) with hE1
  set E2 := modE E1 f (fun x => { x with next := (getE es m).next }) with hE2
  set E3 := modE E2 m (fun x => { x with next := some f }) with hE3
  set E4 := modE E3 f
    (fun x => { x with binding := { name := name, index := 0 }, prev := none }) with hE4
  have hlen1 : E1.length = es.length := length_optModE _ _ _
  have hlen2 : E2.length = es.length := (length_modE _ _ _).trans hlen1
  have hlen3 : E3.length = es.length := (length_modE _ _ _).trans hlen2
  have hlen4 : E4.length = es.length := (length_modE _ _ _).trans hlen3
  have hE1f : getE E1 f = getE es f := by
    rw [hE1, getE_optModE_ne _ _ _ _ hBf]
  have hE4f : getE E4 f =
      { binding := { name := name, index := 0 }, next := (getE es m).next,
        prev := none } := by
    rw [hE4, getE_modE_self _ _ _ (by rw [hlen3]; exact hflt), hE3,
      getE_modE_ne _ _ _ _ hmf.symm, hE2, getE_modE_self _ _ _ (by rw [hlen1]; exact hflt),
      hE1f]
  have hE4m : getE E4 m = { getE es m with next := some f } := by
    rw [hE4, getE_modE_ne _ _ _ _ hmf, hE3, getE_modE_self _ _ _ (by rw [hlen2]; exact hmlt),
      hE2, getE_modE_ne _ _ _ _ hmf, hE1, getE_optModE_ne _ _ _ _ hBm]
  have hbind : ∀ i, i ≠ f → (getE E4 i).binding = (getE es i).binding := by
    intro i hif
    rw [hE4, getE_modE_ne _ _ _ _ hif, hE3, getE_modE_next_binding, hE2,
      getE_modE_next_binding, hE1, getE_optModE_prev_binding]
  have hnext : ∀ i, i ≠ f → i ≠ m → (getE E4 i).next = (getE es i).next := by
    intro i hif him
    rw [hE4, getE_modE_ne _ _ _ _ hif, hE3, getE_modE_ne _ _ _ _ him, hE2,
      getE_modE_ne _ _ _ _ hif, hE1, getE_optModE_prev_next]
  have hsame : ∀ i, i ≠ f → i ≠ m → headO B none ≠ some i → getE E4 i = getE es i := by
    intro i hif him hin
    rw [hE4, getE_modE_ne _ _ _ _ hif, hE3, getE_modE_ne _ _ _ _ him, hE2,
      getE_modE_ne _ _ _ _ hif, hE1, getE_optModE_ne _ _ _ _ hin]
  have hnpoint : ∀ n2, headO B none = some n2 →
      getE E4 n2 = { getE es n2 with prev := none } := by
    intro n2 hn2
    have hn2B : n2 ∈ B := headO_mem B n2 hn2
    have hn2f : n2 ≠ f := fun hc => hfB (hc ▸ hn2B)
    have hn2m : n2 ≠ m := fun hc => hmB (hc ▸ hn2B)
    have hn2lt : n2 < es.length := ((hmemiff n2).mp (by simp [hn2B])).1
    rw [hE4, getE_modE_ne _ _ _ _ hn2f, hE3, getE_modE_ne _ _ _ _ hn2m, hE2,
      getE_modE_ne _ _ _ _ hn2f, hE1, hn2, getE_optModE_self _ _ _ hn2lt]
  have hfl4 : FreeListOk E4 (headO B none) B := by
    refine ⟨(head?_eq_headO B).symm, hndB, ?_, ?_⟩
    · intro i
      constructor
      · intro hiB
        have hif : i ≠ f := fun hc => hfB (hc ▸ hiB)
        obtain ⟨hilt, hifree⟩ := (hmemiff i).mp (by simp [hiB])
        refine ⟨by rw [hlen4]; exact hilt, ?_⟩
        rw [isFree_congr _ _ (hbind i hif)]
        exact hifree
      · rintro ⟨hilt, hifree⟩
        have hif : i ≠ f := by
          intro hc
          rw [hc, isFree_true_iff, hE4f] at hifree
          exact hnn hifree
        have hifree0 : wasm_hash_entry_is_free (getE es i) = true := by
          rw [← isFree_congr _ _ (hbind i hif)]
          exact hifree
        have hifl : i ∈ f :: B :=
          (hmemiff i).mpr ⟨by rw [← hlen4]; exact hilt, hifree0⟩
        rcases List.mem_cons.mp hifl with hc | hiB
        · exact absurd hc hif
        · exact hiB
    · cases hB : B with
      | nil => exact FSeg_nil _ _ _
      | cons n2 B2 =>
        rw [hB] at hFB
        rw [FSeg_cons] at hFB
        obtain ⟨hn2prev, hn2next, hFB2⟩ := hFB
        have hgn := hnpoint n2 (by rw [hB]; rfl)
        rw [FSeg_cons]
        refine ⟨by rw [hgn], ?_, ?_⟩
        · rw [hgn]
          show (getE es n2).next = headO B2 none
          exact hn2next
        · refine FSeg_congr es E4 B2 ?_ (some n2) none hFB2
          intro i hi
          have hiB : i ∈ B := by rw [hB]; simp [hi]
          have hif : i ≠ f := fun hc => hfB (hc ▸ hiB)
          have him : i ≠ m := fun hc => hmB (hc ▸ hiB)
          have hin : headO B none ≠ some i := by
            rw [hB, headO_cons]
            intro hc
            have hni : n2 = i := by simpa using hc
            have hndn2 : n2 ∉ B2 := (List.nodup_cons.mp (hB ▸ hndB)).1
            exact hndn2 (hni ▸ hi)
          rw [hsame i hif him hin]
          exact ⟨rfl, rfl⟩
  have hperm : (bindingsList E4).Perm
      ({ name := name, index := 0 } :: bindingsList es) := by
    have h3 : bindingsList E3 = bindingsList es := by
      rw [hE3, bindingsList_modE_next, hE2, bindingsList_modE_next, hE1,
        bindingsList_optModE_prev]
    have hfree3 : wasm_hash_entry_is_free (getE E3 f) = true := by
      have hb3 : (getE E3 f).binding = (getE es f).binding := by
        rw [hE3, getE_modE_next_binding, hE2, getE_modE_next_binding, hE1,
          getE_optModE_prev_binding]
      rw [isFree_congr _ _ hb3]
      exact hffree
    have hocc4 : wasm_hash_entry_is_free
        ((fun x => { x with binding := { name := name, index := 0 }, prev := none })
          (getE E3 f)) = false := by
      rw [isFree_false_iff]
      exact hnn
    have h4 := bindingsList_set_free E3 f _ (by rw [hlen3]; exact hflt) hfree3 hocc4
    rw [h3] at h4
    exact h4
  exact ⟨E4, heq, hlen4, hE4f, hE4m, hbind, hnext, hsame, hfl4, hperm⟩

/-- What `wasm_hash_new_entry` does on a collision whose occupant is
    displaced (not in its own main position): the occupant's entry is copied
    wholesale into the free-list head, the link from its true predecessor is
    repaired, and the new binding takes over the vacated main slot. -/
theorem new_entry_spec_reloc (h : WasmBindingHash) (name : WasmStringSlice)
    (f p2 r : Nat) (B P S : List Nat)
    (hnn : NonNullSlice name)
    (hcap : 0 < h.entries.length)
    (hfl : FreeListOk h.entries h.free_head (f :: B))
    (hocc : wasm_hash_entry_is_free (getE h.entries (mainIdx h.entries.length name)) = false)
    (hr : r = mainIdx h.entries.length
      (getE h.entries (mainIdx h.entries.length name)).binding.name)
    (hrm : r ≠ mainIdx h.entries.length name)
    (hch : ChainAt h.entries r ((r :: P) ++ mainIdx h.entries.length name :: S))
    (hp2 : lastO (r :: P) none = some p2) :
    ∃ es5,
      wasm_hash_new_entry h name =
        some ({ entries := es5, size := h.size, free_head := headO B none },
          mainIdx h.entries.length name) ∧
      es5.length = h.entries.length ∧
      getE es5 (mainIdx h.entries.length name) =
        { binding := { name := name, index := 0 }, next := none, prev := none } ∧
      getE es5 f = getE h.entries (mainIdx h.entries.length name) ∧
      getE es5 p2 = { getE h.entries p2 with next := some f } ∧
      (∀ i, i ≠ mainIdx h.entries.length name → i ≠ f →
        (getE es5 i).binding = (getE h.entries i).binding) ∧
      (∀ i, i ≠ mainIdx h.entries.length name → i ≠ f → i ≠ p2 →
        (getE es5 i).next = (getE h.entries i).next) ∧
      (∀ i, i ≠ mainIdx h.entries.length name → i ≠ f → i ≠ p2 →
        headO B none ≠ some i → getE es5 i = getE h.entries i) ∧
      FreeListOk es5 (headO B none) B ∧
      (bindingsList es5).Perm ({ name := name, index := 0 } :: bindingsList h.entries) := by
  obtain ⟨hfh, hnd, hmemiff, hfseg⟩ := hfl
  set m := mainIdx h.entries.length name with hmdef
  set es := h.entries with hesdef
  obtain ⟨hchh, hchseg, hchnd, hchmem⟩ := hch
  have hndB : B.Nodup := (List.nodup_cons.mp hnd).2
  have hfB : f ∉ B := (List.nodup_cons.mp hnd).1
  rw [FSeg_cons] at hfseg
  obtain ⟨hfprev, hfnext, hFB⟩ := hfseg
  have hmlt : m < es.length := Nat.mod_lt _ hcap
  have hffree : wasm_hash_entry_is_free (getE es f) = true := ((hmemiff f).mp (by simp)).2
  have hflt : f < es.length := ((hmemiff f).mp (by simp)).1
  have hmf : m ≠ f := by
    intro hc
    rw [hc, hffree] at hocc
    exact Bool.true_eq_false.mp hocc
  have hmB : m ∉ B := by
    intro hc
    have hfree2 := ((hmemiff m).mp (by simp [hc])).2
    rw [hfree2] at hocc
    exact Bool.true_eq_false.mp hocc
  have hBm : headO B none ≠ some m := fun hc => hmB (headO_mem B m hc)
  have hBf : headO B none ≠ some f := fun hc => hfB (headO_mem B f hc)
  have hp2rP : p2 ∈ r :: P := lastO_mem _ _ hp2
  have hp2ch : p2 ∈ (r :: P) ++ m :: S := List.mem_append.mpr (Or.inl hp2rP)
  have hmch : m ∈ (r :: P) ++ m :: S := List.mem_append.mpr (Or.inr (by simp))
  have hp2occ : wasm_hash_entry_is_free (getE es p2) = false := (hchmem _ hp2ch).2.1
  have hp2lt : p2 < es.length := (hchmem _ hp2ch).1
  have hp2f : p2 ≠ f := by
    intro hc
    rw [hc, hffree] at hp2occ
    exact Bool.true_eq_false.mp hp2occ
  have hp2B : p2 ∉ B := by
    intro hc
    have hfree2 := ((hmemiff p2).mp (by simp [hc])).2
    rw [hfree2] at hp2occ
    exact Bool.true_eq_false.mp hp2occ
  have hBp2 : headO B none ≠ some p2 := fun hc => hp2B (headO_mem B p2 hc)
  have hmrP : m ∉ r :: P := by
    rw [List.nodup_append] at hchnd
    intro hc
    exact (hchnd.2.2 hc) (by simp)
  have hmS : m ∉ S := by
    rw [List.nodup_append] at hchnd
    exact (List.nodup_cons.mp hchnd.2.1).1
  have hp2m : p2 ≠ m := fun hc => hmrP (hc ▸ hp2rP)
  have hfch : f ∉ (r :: P) ++ m :: S := by
    intro hc
    have := (hchmem _ hc).2.1
    rw [hffree] at this
    exact Bool.true_eq_false.mp this
  -- the walk over the prev-adjusted array finds the same predecessor
  set E1 := optModE es (headO B none) (fun x => { x with prev := none }) with hE1
  have hlen1 : E1.length = es.length := length_optModE _ _ _
  have hE1next : ∀ i, (getE E1 i).next = (getE es i).next := by
    intro i
    rw [hE1, getE_optModE_prev_next]
  have hE1m : getE E1 m = getE es m := by
    rw [hE1, getE_optModE_ne _ _ _ _ hBm]
  have hseg1 : NSeg E1 ((r :: P) ++ m :: S) none :=
    NSeg_congr es E1 _ none (fun i _ => hE1next i) hchseg
  have hchlen : ((r :: P) ++ m :: S).length ≤ es.length :=
    nodup_bounded_length _ _ hchnd (fun i hi => (hchmem i hi).1)
  have hPlen : P.length < es.length := by
    simp at hchlen
    omega
  have hpredr : chainFindPred E1 m es.length r = some p2 := by
    rw [chainFindPred_correct P E1 m S es.length r hseg1 hmrP hPlen]
    exact hp2
  have hes1raw : optModE es (getE es f).next (fun x => { x with prev := none }) = E1 := by
    rw [hfnext, hE1]
  have heq := new_entry_unfold_reloc h name f p2 (by rw [← hesdef]; omega) hocc hfh
    (by rw [hes1raw, hE1m, ← hr]; exact hrm)
    (by rw [hes1raw, hE1m, ← hr]; exact hpredr)
  rw [hes1raw, hfnext] at heq
  set E2 := modE E1 p2 (fun x => { x with next := some f }) with hE2
  have hlen2 : E2.length = es.length := (length_modE _ _ _).trans hlen1
  have hE2m : getE E2 m = getE es m := by
    rw [hE2, getE_modE_ne _ _ _ _ hp2m.symm, hE1m]
  rw [hE2m] at heq
  set E3 := E2.set f (getE es m) with hE3
  set E4 := modE E3 m (fun x => { x with next := none }) with hE4
  set E5 := modE E4 m
    (fun x => { x with binding := { name := name, index := 0 }, prev := none }) with hE5
  have hlen3 : E3.length = es.length := by rw [hE3, List.length_set, hlen2]
  have hlen4 : E4.length = es.length := (length_modE _ _ _).trans hlen3
  have hlen5 : E5.length = es.length := (length_modE _ _ _).trans hlen4
  have hE3m : getE E3 m = getE es m := by
    rw [hE3, getE_set_ne _ _ _ _ hmf, hE2m]
  have hE5m : getE E5 m =
      { binding := { name := name, index := 0 }, next := none, prev := none } := by
    rw [hE5, getE_modE_self _ _ _ (by rw [hlen4]; exact hmlt), hE4,
      getE_modE_self _ _ _ (by rw [hlen3]; exact hmlt)]
  have hE5f : getE E5 f = getE es m := by
    rw [hE5, getE_modE_ne _ _ _ _ hmf.symm, hE4, getE_modE_ne _ _ _ _ hmf.symm, hE3,
      getE_set_self _ _ _ (by rw [hlen2]; exact hflt)]
  have hE5p2 : getE E5 p2 = { getE es p2 with next := some f } := by
    rw [hE5, getE_modE_ne _ _ _ _ hp2m, hE4, getE_modE_ne _ _ _ _ hp2m, hE3,
      getE_set_ne _ _ _ _ hp2f, hE2, getE_modE_self _ _ _ (by rw [hlen1]; exact hp2lt),
      hE1, getE_optModE_ne _ _ _ _ hBp2]
  have hbind : ∀ i, i ≠ m → i ≠ f → (getE E5 i).binding = (getE es i).binding := by
    intro i him hif
    rw [hE5, getE_modE_ne _ _ _ _ him, hE4, getE_modE_next_binding, hE3,
      getE_set_ne _ _ _ _ hif, hE2, getE_modE_next_binding, hE1,
      getE_optModE_prev_binding]
  have hnext : ∀ i, i ≠ m → i ≠ f → i ≠ p2 → (getE E5 i).next = (getE es i).next := by
    intro i him hif hip
    rw [hE5, getE_modE_setbp_next, hE4, getE_modE_ne _ _ _ _ him, hE3,
      getE_set_ne _ _ _ _ hif, hE2, getE_modE_ne _ _ _ _ hip, hE1,
      getE_optModE_prev_next]
  have hsame : ∀ i, i ≠ m → i ≠ f → i ≠ p2 → headO B none ≠ some i →
      getE E5 i = getE es i := by
    intro i him hif hip hin
    rw [hE5, getE_modE_ne _ _ _ _ him, hE4, getE_modE_ne _ _ _ _ him, hE3,
      getE_set_ne _ _ _ _ hif, hE2, getE_modE_ne _ _ _ _ hip, hE1,
      getE_optModE_ne _ _ _ _ hin]
  have hnpoint : ∀ n2, headO B none = some n2 →
      getE E5 n2 = { getE es n2 with prev := none } := by
    intro n2 hn2
    have hn2B : n2 ∈ B := headO_mem B n2 hn2
    have hn2f : n2 ≠ f := fun hc => hfB (hc ▸ hn2B)
    have hn2m : n2 ≠ m := fun hc => hmB (hc ▸ hn2B)
    have hn2p : n2 ≠ p2 := fun hc => hp2B (hc ▸ hn2B)
    have hn2lt : n2 < es.length := ((hmemiff n2).mp (by simp [hn2B])).1
    rw [hE5, getE_modE_ne _ _ _ _ hn2m, hE4, getE_modE_ne _ _ _ _ hn2m, hE3,
      getE_set_ne _ _ _ _ hn2f, hE2, getE_modE_ne _ _ _ _ hn2p, hE1, hn2,
      getE_optModE_self _ _ _ hn2lt]
  have hoccE5f : wasm_hash_entry_is_free (getE E5 f) = false := by
    rw [isFree_congr _ _ (by rw [hE5f])]
    exact hocc
  have hfl5 : FreeListOk E5 (headO B none) B := by
    refine ⟨(head?_eq_headO B).symm, hndB, ?_, ?_⟩
    · intro i
      constructor
      · intro hiB
        have hif : i ≠ f := fun hc => hfB (hc ▸ hiB)
        have him : i ≠ m := fun hc => hmB (hc ▸ hiB)
        obtain ⟨hilt, hifree⟩ := (hmemiff i).mp (by simp [hiB])
        refine ⟨by rw [hlen5]; exact hilt, ?_⟩
        rw [isFree_congr _ _ (hbind i him hif)]
        exact hifree
      · rintro ⟨hilt, hifree⟩
        have hif : i ≠ f := by
          intro hc
          rw [hc, hoccE5f] at hifree
          exact Bool.false_eq_true.mp hifree
        have him : i ≠ m := by
          intro hc
          rw [hc, isFree_true_iff, hE5m] at hifree
          exact hnn hifree
        have hifree0 : wasm_hash_entry_is_free (getE es i) = true := by
          rw [← isFree_congr _ _ (hbind i him hif)]
          exact hifree
        have hifl : i ∈ f :: B :=
          (hmemiff i).mpr ⟨by rw [← hlen5]; exact hilt, hifree0⟩
        rcases List.mem_cons.mp hifl with hc | hiB
        · exact absurd hc hif
        · exact hiB
    · cases hB : B with
      | nil => exact FSeg_nil _ _ _
      | cons n2 B2 =>
        rw [hB] at hFB
        rw [FSeg_cons] at hFB
        obtain ⟨hn2prev, hn2next, hFB2⟩ := hFB
        have hgn := hnpoint n2 (by rw [hB]; rfl)
        rw [FSeg_cons]
        refine ⟨by rw [hgn], ?_, ?_⟩
        · rw [hgn]
          show (getE es n2).next = headO B2 none
          exact hn2next
        · refine FSeg_congr es E5 B2 ?_ (some n2) none hFB2
          intro i hi
          have hiB : i ∈ B := by rw [hB]; simp [hi]
          have hif : i ≠ f := fun hc => hfB (hc ▸ hiB)
          have him : i ≠ m := fun hc => hmB (hc ▸ hiB)
          have hipp : i ≠ p2 := fun hc => hp2B (hc ▸ hiB)
          have hin : headO B none ≠ some i := by
            rw [hB, headO_cons]
            intro hc
            have hni : n2 = i := by simpa using hc
            have hndn2 : n2 ∉ B2 := (List.nodup_cons.mp (hB ▸ hndB)).1
            exact hndn2 (hni ▸ hi)
          rw [hsame i him hif hipp hin]
          exact ⟨rfl, rfl⟩
  have hperm : (bindingsList E5).Perm
      ({ name := name, index := 0 } :: bindingsList es) := by
    have hbl2 : bindingsList E2 = bindingsList es := by
      rw [hE2, bindingsList_modE_next, hE1, bindingsList_optModE_prev]
    have hfreeE2f : wasm_hash_entry_is_free (getE E2 f) = true := by
      have hb2 : (getE E2 f).binding = (getE es f).binding := by
        rw [hE2, getE_modE_next_binding, hE1, getE_optModE_prev_binding]
      rw [isFree_congr _ _ hb2]
      exact hffree
    have hbl3 : (bindingsList E3).Perm ((getE es m).binding :: bindingsList es) := by
      rw [hE3]
      have := bindingsList_set_free E2 f (getE es m) (by rw [hlen2]; exact hflt)
        hfreeE2f hocc
      rw [hbl2] at this
      exact this
    have hbl4 : (bindingsList E4).Perm ((getE es m).binding :: bindingsList es) := by
      rw [hE4, bindingsList_modE_next]
      exact hbl3
    have hoccE4m : wasm_hash_entry_is_free (getE E4 m) = false := by
      have hb4 : (getE E4 m).binding = (getE es m).binding := by
        rw [hE4, getE_modE_next_binding, hE3m]
      rw [isFree_congr _ _ hb4]
      exact hocc
    have hb4m : (getE E4 m).binding = (getE es m).binding := by
      rw [hE4, getE_modE_next_binding, hE3m]
    have hocc5 : wasm_hash_entry_is_free
        ((fun x => { x with binding := { name := name, index := 0 }, prev := none })
          (getE E4 m)) = false := by
      rw [isFree_false_iff]
      exact hnn
    obtain ⟨T, D, hTD1, hTD2⟩ := bindingsList_set_occ E4 m _
      (by rw [hlen4]; exact hmlt) hoccE4m hocc5
    have hTD : (T ++ D).Perm (bindingsList es) := by
      have h1 : ((getE E4 m).binding :: (T ++ D)).Perm
          ((getE E4 m).binding :: bindingsList es) := by
        refine List.Perm.trans ?_ (hTD1 ▸ (hb4m ▸ hbl4))
        exact List.perm_middle.symm
      exact h1.cons_inv
    show (bindingsList E5).Perm _
    rw [hE5]
    show (bindingsList (E4.set m _)).Perm _
    rw [hTD2]
    refine List.Perm.trans List.perm_middle ?_
    exact hTD.cons _
  exact ⟨E5, heq, hlen5, hE5m, hE5f, hE5p2, hbind, hnext, hsame, hfl5, hperm⟩

/-- `wasm_hash_new_entry` on a well-formed table with a nonempty free list:
    it succeeds, preserves the structural invariant, capacity and size, and
    the occupied bindings gain exactly one zeroed binding with the new name,
    placed at the returned slot. -/
theorem new_entry_spec (h : WasmBindingHash) (name : WasmStringSlice)
    (inv : HashInvPos h) (hnn : NonNullSlice name) (hfhne : h.free_head ≠ none) :
    ∃ h2 e, wasm_hash_new_entry h name = some (h2, e) ∧
      HashInvPos h2 ∧
      h2.entries.length = h.entries.length ∧
      h2.size = h.size ∧
      e < h.entries.length ∧
      (getE h2.entries e).binding = { name := name, index := 0 } ∧
      (bindingsList h2.entries).Perm
        ({ name := name, index := 0 } :: bindingsList h.entries) := by
  obtain ⟨fl, hfl⟩ := inv.freeOk
  set m := mainIdx h.entries.length name with hmdef
  set es := h.entries with hesdef
  have hcap : 0 < es.length := inv.capPos
  have hmlt : m < es.length := Nat.mod_lt _ hcap
  by_cases hfreeT : wasm_hash_entry_is_free (getE es m) = true
  · -- the main slot is free
    have hmfl : m ∈ fl := (hfl.2.2.1 m).mpr ⟨hmlt, hfreeT⟩
    obtain ⟨A, B, hAB⟩ := List.append_of_mem hmfl
    subst hAB
    obtain ⟨es4, fh2, heq, hlen4, hE4m, hbind, hnext, hfl4, hperm⟩ :=
      new_entry_spec_free h name A B hnn hcap hfl hfreeT
    refine ⟨_, m, heq, ?_, hlen4, rfl, hmlt, by rw [hE4m], hperm⟩
    refine ⟨by rw [show ({ entries := es4, size := h.size, free_head := fh2 } :
        WasmBindingHash).entries.length = es4.length from rfl, hlen4]; exact hcap,
      ⟨A ++ B, hfl4⟩, ?_⟩
    intro j hj hjocc
    show ∃ ch, ChainAt es4 (mainIdx es4.length (getE es4 j).binding.name) ch ∧ j ∈ ch
    rw [hlen4] at hj
    by_cases hjm : j = m
    · subst hjm
      have hname4 : (getE es4 m).binding.name = name :=
        congrArg (fun e => e.binding.name) hE4m
      have hnext4 : (getE es4 m).next = none := congrArg WasmBindingHashEntry.next hE4m
      have hmain : mainIdx es4.length (getE es4 m).binding.name = m := by
        rw [hname4, hlen4]
      have hocc4 : wasm_hash_entry_is_free (getE es4 m) = false := by
        rw [isFree_false_iff, hname4]
        exact hnn
      rw [hmain]
      exact ⟨[m], ChainAt_singleton es4 m (by rw [hlen4]; exact hmlt) hocc4 hmain hnext4,
        by simp⟩
    · have hjb := hbind j hjm
      have hjocc0 : wasm_hash_entry_is_free (getE es j) = false := by
        rw [← isFree_congr _ _ hjb]
        exact hjocc
      obtain ⟨ch, hch, hjch⟩ := inv.chainsOk j hj hjocc0
      have helem : ∀ i ∈ ch, i ≠ m ∧ lastO A none ≠ some i := by
        intro i hi
        obtain ⟨hilt, hiocc, _⟩ := hch.2.2.2 i hi
        constructor
        · intro hc
          rw [hc, hfreeT] at hiocc
          exact Bool.true_eq_false.mp hiocc
        · intro hc
          have hiA : i ∈ A := lastO_mem A i hc
          have hifree := ((hfl.2.2.1 i).mp (List.mem_append.mpr (Or.inl hiA))).2
          rw [hifree] at hiocc
          exact Bool.true_eq_false.mp hiocc
      have hroot_eq : mainIdx es4.length (getE es4 j).binding.name =
          mainIdx es.length (getE es j).binding.name := by
        rw [hlen4, hjb]
      rw [hroot_eq]
      exact ⟨ch, ChainAt_preserved es es4 _ ch hlen4 hch
        (fun i hi => hnext i (helem i hi).1 (helem i hi).2)
        (fun i hi => congrArg WasmBinding.name (hbind i (helem i hi).1)), hjch⟩
  · -- collision at the main slot
    have hocc : wasm_hash_entry_is_free (getE es m) = false := by
      simpa using hfreeT
    obtain ⟨f, B, hflfB⟩ : ∃ f B, fl = f :: B := by
      cases fl with
      | nil => exact absurd hfl.1 (by simpa using hfhne)
      | cons f B => exact ⟨f, B, rfl⟩
    subst hflfB
    have hffree : wasm_hash_entry_is_free (getE es f) = true := ((hfl.2.2.1 f).mp (by simp)).2
    have hflt : f < es.length := ((hfl.2.2.1 f).mp (by simp)).1
    have hmf : m ≠ f := by
      intro hc
      rw [hc, hffree] at hocc
      exact Bool.true_eq_false.mp hocc
    obtain ⟨ch, hch, hmch⟩ := inv.chainsOk m hmlt hocc
    set r := mainIdx es.length (getE es m).binding.name with hrdef
    have hfch : ∀ i ∈ ch, i ≠ f := by
      intro i hi hc
      have := (hch.2.2.2 i hi).2.1
      rw [hc, hffree] at this
      exact Bool.true_eq_false.mp this
    by_cases hrm : r = m
    · -- occupant is in its main position: splice
      obtain ⟨es4, heq, hlen4, hE4f, hE4m, hbind, hnext, hsame, hfl4, hperm⟩ :=
        new_entry_spec_splice h name f B hnn hcap hfl hocc (by rw [← hrdef]; exact hrm)
      obtain ⟨R, hchR⟩ : ∃ R, ch = m :: R := by
        cases ch with
        | nil => simp [ChainAt] at hch
        | cons a t =>
          have ha : a = r := by simpa using hch.1
          exact ⟨t, by rw [ha, hrm]⟩
      subst hchR
      have hndmR := hch.2.2.1
      have hmR : m ∉ R := (List.nodup_cons.mp hndmR).1
      have hRmem := hch.2.2.2
      have hsegmR := hch.2.1
      rw [NSeg_cons] at hsegmR
      obtain ⟨hmnext, hsegR⟩ := hsegmR
      have hRne : ∀ i ∈ R, i ≠ f ∧ i ≠ m := by
        intro i hi
        exact ⟨hfch i (by simp [hi]), fun hc => hmR (hc ▸ hi)⟩
      have hb4m : (getE es4 m).binding = (getE es m).binding :=
        (congrArg WasmBindingHashEntry.binding hE4m).trans rfl
      have hn4m : (getE es4 m).next = some f := congrArg WasmBindingHashEntry.next hE4m
      have hname4f : (getE es4 f).binding.name = name :=
        congrArg (fun e => e.binding.name) hE4f
      have hn4f : (getE es4 f).next = (getE es m).next :=
        (congrArg WasmBindingHashEntry.next hE4f).trans rfl
      have hCH2 : ChainAt es4 m (m :: f :: R) := by
        refine ⟨rfl, ?_, ?_, ?_⟩
        · rw [NSeg_cons, NSeg_cons]
          refine ⟨hn4m, hn4f.trans hmnext, ?_⟩
          exact NSeg_congr es es4 R none
            (fun i hi => hnext i (hRne i hi).1 (hRne i hi).2) hsegR
        · rw [List.nodup_cons, List.nodup_cons]
          refine ⟨?_, ?_, (List.nodup_cons.mp hndmR).2⟩
          · intro hc
            rcases List.mem_cons.mp hc with hc2 | hc2
            · exact hmf hc2
            · exact hmR hc2
          · exact fun hc => (hfch _ (by simp [hc])) rfl
        · intro i hi
          rcases List.mem_cons.mp hi with hieq | hi2
          · rw [hieq]
            refine ⟨by rw [hlen4]; exact hmlt, ?_, ?_⟩
            · rw [isFree_congr _ _ hb4m]
              exact hocc
            · rw [hlen4, hb4m, ← hrdef]
              exact hrm
          rcases List.mem_cons.mp hi2 with hieq | hi3
          · rw [hieq]
            refine ⟨by rw [hlen4]; exact hflt, ?_, ?_⟩
            · rw [isFree_false_iff, hname4f]
              exact hnn
            · rw [hlen4, hname4f]
          · obtain ⟨hilt, hiocc, himain⟩ := hRmem i (by simp [hi3])
            refine ⟨by rw [hlen4]; exact hilt, ?_, ?_⟩
            · rw [isFree_congr _ _ (hbind i (hRne i hi3).1)]
              exact hiocc
            · rw [hlen4, hbind i (hRne i hi3).1]
              exact himain.trans hrm
      refine ⟨_, f, heq, ?_, hlen4, rfl, hflt, by rw [hE4f], hperm⟩
      refine ⟨by rw [show ({ entries := es4, size := h.size, free_head := headO B none } :
          WasmBindingHash).entries.length = es4.length from rfl, hlen4]; exact hcap,
        ⟨B, hfl4⟩, ?_⟩
      intro j hj hjocc
      show ∃ ch2, ChainAt es4 (mainIdx es4.length (getE es4 j).binding.name) ch2 ∧ j ∈ ch2
      rw [hlen4] at hj
      by_cases hjf : j = f
      · have hmain : mainIdx es4.length (getE es4 j).binding.name = m := by
          rw [hjf, hname4f, hlen4]
        rw [hmain, hjf]
        exact ⟨m :: f :: R, hCH2, by simp⟩
      · have hjb := hbind j hjf
        have hjocc0 : wasm_hash_entry_is_free (getE es j) = false := by
          rw [← isFree_congr _ _ hjb]
          exact hjocc
        obtain ⟨chj, hchj, hjchj⟩ := inv.chainsOk j hj hjocc0
        have hroot_eq : mainIdx es4.length (getE es4 j).binding.name =
            mainIdx es.length (getE es j).binding.name := by
          rw [hlen4, hjb]
        rw [hroot_eq]
        by_cases hrj : mainIdx es.length (getE es j).binding.name = m
        · -- same chain as the occupant's: it grew by the spliced entry
          have hchj2 : ChainAt es (mainIdx es.length (getE es j).binding.name) chj := hchj
          rw [hrj] at hchj2
          have hchm : ChainAt es m (m :: R) := by
            rw [← hrm] at hch ⊢
            exact hch
          have hceq : chj = m :: R := ChainAt_unique es m chj (m :: R) hchj2 hchm
          rw [hrj]
          refine ⟨m :: f :: R, hCH2, ?_⟩
          have hjmR : j ∈ m :: R := hceq ▸ hjchj
          rcases List.mem_cons.mp hjmR with rfl | hjR
          · simp
          · simp [hjR]
        · -- an unrelated chain is untouched
          have helem : ∀ i ∈ chj, i ≠ f ∧ i ≠ m := by
            intro i hi
            obtain ⟨hilt, hiocc, himain⟩ := hchj.2.2.2 i hi
            constructor
            · intro hc
              rw [hc, hffree] at hiocc
              exact Bool.true_eq_false.mp hiocc
            · intro hc
              rw [hc] at himain
              rw [← hrdef] at himain
              exact hrj (himain.symm.trans hrm)
          exact ⟨chj, ChainAt_preserved es es4 _ chj hlen4 hchj
            (fun i hi => hnext i (helem i hi).1 (helem i hi).2)
            (fun i hi => congrArg WasmBinding.name (hbind i (helem i hi).1)), hjchj⟩
    · -- occupant is displaced: relocation
      obtain ⟨T, hchT⟩ : ∃ T, ch = r :: T := by
        cases ch with
        | nil => simp [ChainAt] at hch
        | cons a t =>
          have ha : a = r := by simpa using hch.1
          exact ⟨t, by rw [ha]⟩
      have hmT : m ∈ T := by
        have hmm := hchT ▸ hmch
        rcases List.mem_cons.mp hmm with hc | hc
        · exact absurd hc.symm hrm
        · exact hc
      obtain ⟨P, S, hT⟩ := List.append_of_mem hmT
      have hchform : ch = (r :: P) ++ m :: S := by
        rw [hchT, hT]
        rfl
      obtain ⟨p2, hp2⟩ := lastO_some P r none
      obtain ⟨es5, heq, hlen5, hE5m, hE5f, hE5p2, hbind, hnext, hsame, hfl5, hperm⟩ :=
        new_entry_spec_reloc h name f p2 r B P S hnn hcap hfl hocc hrdef hrm
          (hchform ▸ hch) hp2
      have hb5p2 : (getE es5 p2).binding = (getE es p2).binding :=
        (congrArg WasmBindingHashEntry.binding hE5p2).trans rfl
      have hn5p2 : (getE es5 p2).next = some f :=
        (congrArg WasmBindingHashEntry.next hE5p2).trans rfl
      have hname5m : (getE es5 m).binding.name = name :=
        congrArg (fun e => e.binding.name) hE5m
      have hnext5m : (getE es5 m).next = none := congrArg WasmBindingHashEntry.next hE5m
      have hb5f : (getE es5 f).binding = (getE es m).binding :=
        congrArg WasmBindingHashEntry.binding hE5f
      have hn5f : (getE es5 f).next = (getE es m).next :=
        congrArg WasmBindingHashEntry.next hE5f
      have hchnd : ((r :: P) ++ m :: S).Nodup := hchform ▸ hch.2.2.1
      have hchmem := hch.2.2.2
      rw [hchform] at hchmem
      have hchseg : NSeg es ((r :: P) ++ m :: S) none := hchform ▸ hch.2.1
      rw [NSeg_append] at hchseg
      obtain ⟨hsegrP, hsegmS⟩ := hchseg
      rw [headO_cons] at hsegrP
      rw [NSeg_cons] at hsegmS
      obtain ⟨hmnext, hsegS⟩ := hsegmS
      have hmrP : m ∉ r :: P := by
        rw [List.nodup_append] at hchnd
        exact fun hc => (hchnd.2.2 hc) (by simp)
      have hmS : m ∉ S := by
        have hnd2 := hchnd
        rw [List.nodup_append] at hnd2
        exact (List.nodup_cons.mp hnd2.2.1).1
      have hdisjPS : ∀ i ∈ r :: P, i ∉ m :: S := by
        have hnd2 := hchnd
        rw [List.nodup_append] at hnd2
        exact fun i hi => hnd2.2.2 hi
      have hp2rP : p2 ∈ r :: P := lastO_mem _ _ hp2
      have hp2m : p2 ≠ m := fun hc => hmrP (hc ▸ hp2rP)
      have hp2S : p2 ∉ S := fun hc => (hdisjPS p2 hp2rP) (by simp [hc])
      have hchelem : ∀ i ∈ (r :: P) ++ m :: S, i ≠ f := by
        intro i hi
        exact hfch i (hchform ▸ hi)
      have hrmem : ∀ i ∈ (r :: P) ++ m :: S, i < es.length ∧
          wasm_hash_entry_is_free (getE es i) = false ∧
          mainIdx es.length (getE es i).binding.name = r := hchmem
      -- the relocated chain
      have hCHR : ChainAt es5 r ((r :: P) ++ f :: S) := by
        refine ⟨?_, ?_, ?_, ?_⟩
        · rfl
        · rw [NSeg_append, headO_cons]
          constructor
          · -- the prefix now ends in the copied slot f
            obtain ⟨Ai, p2x, hAi⟩ : ∃ L b, r :: P = L ++ [b] := by
              rcases List.eq_nil_or_concat (r :: P) with hc | ⟨L, b, hc⟩
              · simp at hc
              · exact ⟨L, b, by rw [hc, List.concat_eq_append]⟩
            have hp2x : p2 = p2x := by
              have hl := lastO_concat Ai p2x (none : Option Nat)
              rw [← hAi, hp2] at hl
              simpa using hl
            subst hp2x
            rw [hAi] at hsegrP ⊢
            rw [NSeg_append] at hsegrP ⊢
            obtain ⟨hsegAi, _⟩ := hsegrP
            have hndrP : (r :: P).Nodup := by
              have hnd2 := hchnd
              rw [List.nodup_append] at hnd2
              exact hnd2.1
            have hp2Ai : p2 ∉ Ai := by
              rw [hAi, List.nodup_append] at hndrP
              exact fun hc => (hndrP.2.2 hc) (by simp)
            constructor
            · refine NSeg_congr es es5 Ai _ ?_ hsegAi
              intro i hi
              have hirP : i ∈ r :: P := by rw [hAi]; simp [hi]
              refine hnext i ?_ (hchelem i (List.mem_append.mpr (Or.inl hirP))) ?_
              · exact fun hc => hmrP ((hc.trans hmdef.symm) ▸ hirP)
              · exact fun hc => hp2Ai (hc ▸ hi)
            · rw [NSeg_cons]
              exact ⟨hn5p2, trivial⟩
          · rw [NSeg_cons]
            refine ⟨hn5f.trans hmnext, ?_⟩
            refine NSeg_congr es es5 S none ?_ hsegS
            intro i hi
            have himS : i ∈ m :: S := by simp [hi]
            refine hnext i ?_ (hchelem i (List.mem_append.mpr (Or.inr himS))) ?_
            · exact fun hc => hmS ((hc.trans hmdef.symm) ▸ hi)
            · exact fun hc => hp2S (hc ▸ hi)
        · rw [List.nodup_append]
          have hnd2 := hchnd
          rw [List.nodup_append] at hnd2
          refine ⟨hnd2.1, ?_, ?_⟩
          · rw [List.nodup_cons]
            refine ⟨?_, (List.nodup_cons.mp hnd2.2.1).2⟩
            intro hc
            exact (hchelem _ (List.mem_append.mpr (Or.inr (by simp [hc])))) rfl
          · intro a ha hc
            rcases List.mem_cons.mp hc with hc2 | hc2
            · exact (hchelem a (List.mem_append.mpr (Or.inl ha))) (hc2 ▸ rfl)
            · exact (hdisjPS a ha) (by simp [hc2])
        · intro i hi
          rcases List.mem_append.mp hi with hirP | hifS
          · obtain ⟨hilt, hiocc, himain⟩ := hrmem i (List.mem_append.mpr (Or.inl hirP))
            have him : i ≠ m := fun hc => hmrP (hc ▸ hirP)
            have hif : i ≠ f := hchelem i (List.mem_append.mpr (Or.inl hirP))
            refine ⟨by rw [hlen5]; exact hilt, ?_, ?_⟩
            · by_cases hip : i = p2
              · rw [hip, isFree_congr _ _ hb5p2]
                exact hip ▸ hiocc
              · rw [isFree_congr _ _ (hbind i him hif)]
                exact hiocc
            · by_cases hip : i = p2
              · rw [hip, hlen5,
                  show (getE es5 p2).binding.name = (getE es p2).binding.name from
                    congrArg WasmBinding.name hb5p2]
                exact hip ▸ himain
              · rw [hlen5, hbind i him hif]
                exact himain
          · rcases List.mem_cons.mp hifS with hieq | hiS
            · rw [hieq]
              refine ⟨by rw [hlen5]; exact hflt, ?_, ?_⟩
              · rw [isFree_congr _ _ hb5f]
                exact hocc
              · rw [hlen5,
                  show (getE es5 f).binding.name = (getE es m).binding.name from
                    congrArg WasmBinding.name hb5f]
            · obtain ⟨hilt, hiocc, himain⟩ :=
                hrmem i (List.mem_append.mpr (Or.inr (by simp [hiS])))
              have him : i ≠ m := fun hc => hmS (hc ▸ hiS)
              have hif : i ≠ f := hchelem i (List.mem_append.mpr (Or.inr (by simp [hiS])))
              refine ⟨by rw [hlen5]; exact hilt, ?_, ?_⟩
              · rw [isFree_congr _ _ (hbind i him hif)]
                exact hiocc
              · rw [hlen5, hbind i him hif]
                exact himain
      refine ⟨_, m, heq, ?_, hlen5, rfl, hmlt, by rw [hE5m], hperm⟩
      refine ⟨by rw [show ({ entries := es5, size := h.size, free_head := headO B none } :
          WasmBindingHash).entries.length = es5.length from rfl, hlen5]; exact hcap,
        ⟨B, hfl5⟩, ?_⟩
      intro j hj hjocc
      show ∃ ch2, ChainAt es5 (mainIdx es5.length (getE es5 j).binding.name) ch2 ∧ j ∈ ch2
      rw [hlen5] at hj
      by_cases hjm : j = m
      · have hmain : mainIdx es5.length (getE es5 j).binding.name = m := by
          rw [hjm, hname5m, hlen5]
        rw [hmain]
        refine ⟨[m], ChainAt_singleton es5 m (by rw [hlen5]; exact hmlt) ?_ ?_ hnext5m,
          by rw [hjm]; simp⟩
        · rw [isFree_false_iff, hname5m]
          exact hnn
        · rw [hname5m, hlen5]
      by_cases hjf : j = f
      · have hmain : mainIdx es5.length (getE es5 j).binding.name = r := by
          rw [hjf, hlen5,
            show (getE es5 f).binding.name = (getE es m).binding.name from
              congrArg WasmBinding.name hb5f]
        rw [hmain, hjf]
        refine ⟨(r :: P) ++ f :: S, hCHR, ?_⟩
        exact List.mem_append.mpr (Or.inr (by simp))
      · have hjb := hbind j hjm hjf
        have hjocc0 : wasm_hash_entry_is_free (getE es j) = false := by
          rw [← isFree_congr _ _ hjb]
          exact hjocc
        obtain ⟨chj, hchj, hjchj⟩ := inv.chainsOk j hj hjocc0
        have hroot_eq : mainIdx es5.length (getE es5 j).binding.name =
            mainIdx es.length (getE es j).binding.name := by
          rw [hlen5, hjb]
        rw [hroot_eq]
        by_cases hrj : mainIdx es.length (getE es j).binding.name = r
        · have hchj2 : ChainAt es r chj := hrj ▸ hchj
          have hceq : chj = (r :: P) ++ m :: S :=
            ChainAt_unique es r chj _ hchj2 (hchform ▸ hch)
          rw [hrj]
          refine ⟨(r :: P) ++ f :: S, hCHR, ?_⟩
          have hjold : j ∈ (r :: P) ++ m :: S := hceq ▸ hjchj
          rcases List.mem_append.mp hjold with hjl | hjr
          · exact List.mem_append.mpr (Or.inl hjl)
          · rcases List.mem_cons.mp hjr with hc | hjS
            · exact absurd hc hjm
            · exact List.mem_append.mpr (Or.inr (by simp [hjS]))
        · have helem : ∀ i ∈ chj, i ≠ m ∧ i ≠ f ∧ i ≠ p2 := by
            intro i hi
            obtain ⟨hilt, hiocc, himain⟩ := hchj.2.2.2 i hi
            refine ⟨?_, ?_, ?_⟩
            · intro hc
              rw [hc] at himain
              rw [← hrdef] at himain
              exact hrj himain.symm
            · intro hc
              rw [hc, hffree] at hiocc
              exact Bool.true_eq_false.mp hiocc
            · intro hc
              have hp2main := (hrmem p2 (List.mem_append.mpr (Or.inl hp2rP))).2.2
              rw [hc] at himain
              exact hrj (himain.symm.trans hp2main)
          exact ⟨chj, ChainAt_preserved es es5 _ chj hlen5 hchj
            (fun i hi => hnext i (helem i hi).1 (helem i hi).2.1 (helem i hi).2.2)
            (fun i hi => congrArg WasmBinding.name
              (hbind i (helem i hi).1 (helem i hi).2.1)), hjchj⟩

/-! ### Counting occupied slots -/

theorem bindingsList_length_le (es : List WasmBindingHashEntry) :
    (bindingsList es).length ≤ es.length := by
  induction es with
  | nil => simp [bindingsList]
  | cons a t ih =>
    rcases ha : wasm_hash_entry_is_free a with _ | _
    · rw [bindingsList_cons_occ a t ha]
      simpa using ih
    · rw [bindingsList_cons_free a t ha]
      simp
      omega

theorem bindingsList_length_lt :
    ∀ (es : List WasmBindingHashEntry) (i : Nat), i < es.length →
      wasm_hash_entry_is_free (getE es i) = true →
      (bindingsList es).length < es.length := by
  intro es
  induction es with
  | nil => intro i hi; simp at hi
  | cons a t ih =>
    intro i hi hfree
    cases i with
    | zero =>
      have ha : wasm_hash_entry_is_free a = true := by simpa [getE] using hfree
      rw [bindingsList_cons_free a t ha]
      have := bindingsList_length_le t
      simp
      omega
    | succ n =>
      have hrec := ih n (by simpa using hi) (by simpa [getE] using hfree)
      rcases ha : wasm_hash_entry_is_free a with _ | _
      · rw [bindingsList_cons_occ a t ha]
        simp
        omega
      · rw [bindingsList_cons_free a t ha]
        simp
        omega

theorem bindingsList_length_full :
    ∀ (es : List WasmBindingHashEntry),
      (∀ i, i < es.length → wasm_hash_entry_is_free (getE es i) = false) →
      (bindingsList es).length = es.length := by
  intro es
  induction es with
  | nil => simp [bindingsList]
  | cons a t ih =>
    intro hall
    have ha : wasm_hash_entry_is_free a = false := by
      have := hall 0 (by simp)
      simpa [getE] using this
    rw [bindingsList_cons_occ a t ha]
    have := ih (fun i hi => by
      have := hall (i + 1) (by simpa using hi)
      simpa [getE] using this)
    simp [this]

theorem free_head_none_full (h : WasmBindingHash) (inv : HashInvPos h)
    (hnone : h.free_head = none) :
    (bindingsList h.entries).length = h.entries.length := by
  obtain ⟨fl, hfh, hnd, hmem, hseg⟩ := inv.freeOk
  have hfl : fl = [] := by
    cases fl with
    | nil => rfl
    | cons a t => rw [hfh] at hnone; simp at hnone
  apply bindingsList_length_full
  intro i hi
  rcases hc : wasm_hash_entry_is_free (getE h.entries i) with _ | _
  · rfl
  · have : i ∈ fl := (hmem i).mpr ⟨hi, hc⟩
    rw [hfl] at this
    simp at this

theorem free_head_some_notfull (h : WasmBindingHash) (inv : HashInvPos h)
    (hfh : h.free_head ≠ none) :
    (bindingsList h.entries).length < h.entries.length := by
  obtain ⟨fl, hfhe, hnd, hmem, hseg⟩ := inv.freeOk
  obtain ⟨f, B, hflfB⟩ : ∃ f B, fl = f :: B := by
    cases fl with
    | nil => exact absurd hfhe (by simpa using hfh)
    | cons f B => exact ⟨f, B, rfl⟩
  have hf := (hmem f).mp (by simp [hflfB])
  exact bindingsList_length_lt h.entries f hf.1 hf.2

/-! ### Overwriting a binding in place (same name) keeps the invariant -/

theorem getE_modE_setb_next2 (es : List WasmBindingHashEntry) (j : Nat)
    (b : WasmBinding) (i : Nat) :
    (getE (modE es j (fun x => { x with binding := b })) i).next = (getE es i).next :=
  getE_optModE_next es (some j) (fun x => { x with binding := b }) i (fun _ => rfl)

theorem getE_modE_setb_prev (es : List WasmBindingHashEntry) (j : Nat)
    (b : WasmBinding) (i : Nat) :
    (getE (modE es j (fun x => { x with binding := b })) i).prev = (getE es i).prev :=
  getE_optModE_prev_proj es (some j) (fun x => { x with binding := b }) i (fun _ => rfl)

theorem getE_modE_setb_name (es : List WasmBindingHashEntry) (j : Nat)
    (b : WasmBinding) (hbn : b.name = (getE es j).binding.name) (i : Nat) :
    (getE (modE es j (fun x => { x with binding := b })) i).binding.name =
      (getE es i).binding.name := by
  by_cases hij : i = j
  · subst hij
    by_cases hlt : i < es.length
    · rw [getE_modE_self es i _ hlt]
      exact hbn
    · rw [modE_oob es i _ (le_of_not_lt hlt)]
  · rw [getE_modE_ne es j _ i hij]

theorem inv_set_binding_same_name (h : WasmBindingHash) (inv : HashInvPos h)
    (j : Nat) (b : WasmBinding) (s : Nat)
    (hbn : b.name = (getE h.entries j).binding.name) :
    HashInvPos { entries := modE h.entries j (fun x => { x with binding := b }),
                 size := s, free_head := h.free_head } := by
  set es := h.entries with hesdef
  set es2 := modE es j (fun x => { x with binding := b }) with hes2
  have hlen : es2.length = es.length := length_modE _ _ _
  have hgn : ∀ i, (getE es2 i).binding.name = (getE es i).binding.name :=
    getE_modE_setb_name es j b hbn
  have hnx : ∀ i, (getE es2 i).next = (getE es i).next := getE_modE_setb_next2 es j b
  have hpv : ∀ i, (getE es2 i).prev = (getE es i).prev := getE_modE_setb_prev es j b
  refine ⟨by rw [show ({ entries := es2, size := s, free_head := h.free_head } :
      WasmBindingHash).entries.length = es2.length from rfl, hlen]; exact inv.capPos,
    ?_, ?_⟩
  · obtain ⟨fl, hfh, hnd, hmem, hseg⟩ := inv.freeOk
    refine ⟨fl, hfh, hnd, ?_, ?_⟩
    · intro i
      rw [show wasm_hash_entry_is_free (getE es2 i) = wasm_hash_entry_is_free (getE es i)
          from isFree_congr_name _ _ (hgn i), hlen]
      exact hmem i
    · exact FSeg_congr es es2 fl (fun i _ => ⟨hnx i, hpv i⟩) none none hseg
  · intro j2 hj2 hocc2
    show ∃ ch, ChainAt es2 (mainIdx es2.length (getE es2 j2).binding.name) ch ∧ j2 ∈ ch
    rw [hlen] at hj2
    have hocc0 : wasm_hash_entry_is_free (getE es j2) = false := by
      rw [← isFree_congr_name _ _ (hgn j2)]
      exact hocc2
    obtain ⟨ch, hch, hjch⟩ := inv.chainsOk j2 hj2 hocc0
    have hroot : mainIdx es2.length (getE es2 j2).binding.name =
        mainIdx es.length (getE es j2).binding.name := by
      rw [hlen, hgn j2]
    rw [hroot]
    exact ⟨ch, ChainAt_preserved es es2 _ ch hlen hch (fun i _ => hnx i)
      (fun i _ => hgn i), hjch⟩

/-! ### The fresh table built by resize -/

theorem fresh_getE (cap i : Nat) (hi : i < cap) :
    getE ((List.range cap).map (freshEntry cap)) i = freshEntry cap i := by
  rw [getE_eq_getElem _ i (by simpa using hi)]
  simp

theorem range_reverse_succ (n : Nat) :
    (List.range (n + 1)).reverse = n :: (List.range n).reverse := by
  simp [List.range_succ]

theorem fresh_fseg (cap : Nat) :
    ∀ n, n ≤ cap → FSeg ((List.range cap).map (freshEntry cap))
      (if n = cap then none else some n) (List.range n).reverse none := by
  intro n
  induction n with
  | zero => intro _; simp [FSeg_nil]
  | succ k ih =>
    intro hle
    rw [range_reverse_succ, FSeg_cons]
    have hk : k < cap := by omega
    refine ⟨?_, ?_, ?_⟩
    · rw [fresh_getE cap k hk]
      simp only [freshEntry]
      split_ifs with h1 h2 h3 <;> first | rfl | omega
    · rw [fresh_getE cap k hk]
      simp only [freshEntry]
      cases k with
      | zero => rfl
      | succ k2 =>
        rw [range_reverse_succ]
        simp [headO]
    · have := ih (by omega)
      rw [if_neg (by omega)] at this
      exact this

theorem bindingsList_all_free (es : List WasmBindingHashEntry)
    (hall : ∀ e ∈ es, wasm_hash_entry_is_free e = true) : bindingsList es = [] := by
  induction es with
  | nil => rfl
  | cons a t ih =>
    rw [bindingsList_cons_free a t (hall a (by simp))]
    exact ih (fun e he => hall e (by simp [he]))

theorem fresh_inv (cap : Nat) (hcap : 0 < cap) :
    HashInvPos { entries := (List.range cap).map (freshEntry cap), size := 0,
                 free_head := some (cap - 1) } ∧
    bindingsList ((List.range cap).map (freshEntry cap)) = [] := by
  have hfree : ∀ i, i < cap →
      wasm_hash_entry_is_free (getE ((List.range cap).map (freshEntry cap)) i) = true := by
    intro i hi
    rw [fresh_getE cap i hi]
    rfl
  constructor
  · refine ⟨by simpa using hcap, ⟨(List.range cap).reverse, ?_, ?_, ?_, ?_⟩, ?_⟩
    · show some (cap - 1) = (List.range cap).reverse.head?
      obtain ⟨m, rfl⟩ : ∃ m, cap = m + 1 := ⟨cap - 1, by omega⟩
      rw [range_reverse_succ]
      simp
    · exact List.nodup_reverse.mpr (List.nodup_range cap)
    · intro i
      constructor
      · intro hi
        have hilt : i < cap := by simpa using hi
        exact ⟨by simpa using hilt, hfree i hilt⟩
      · rintro ⟨hi, _⟩
        simpa using (by simpa using hi : i < cap)
    · have := fresh_fseg cap cap le_rfl
      rw [if_pos rfl] at this
      exact this
    · intro j hj hocc
      have := hfree j (by simpa using hj)
      rw [this] at hocc
      exact absurd hocc (by simp)
  · apply bindingsList_all_free
    intro e he
    obtain ⟨i, _, rfl⟩ := List.mem_map.mp he
    rfl

/-! ### The resize re-insertion fold -/

theorem resize_step (nh : WasmBindingHash) (e : WasmBindingHashEntry)
    (inv : HashInvPos nh) (hocc : wasm_hash_entry_is_free e = false)
    (hroom : (bindingsList nh.entries).length < nh.entries.length) :
    ∃ nh2, resizeReinsert nh e = some nh2 ∧
      HashInvPos nh2 ∧ nh2.entries.length = nh.entries.length ∧
      nh2.size = nh.size ∧
      (bindingsList nh2.entries).Perm (e.binding :: bindingsList nh.entries) := by
  have hnn : NonNullSlice e.binding.name := (isFree_false_iff e).mp hocc
  have hfh : nh.free_head ≠ none := by
    intro hn
    have := free_head_none_full nh inv hn
    omega
  obtain ⟨h2, sl, heq, inv2, hlen2, hsz2, hslt, hbind2, hperm2⟩ :=
    new_entry_spec nh e.binding.name inv hnn hfh
  have hbn : e.binding.name = (getE h2.entries sl).binding.name := by
    rw [hbind2]
  refine ⟨{ h2 with entries := modE h2.entries sl
                      (fun x => { x with binding := e.binding }) },
    by unfold resizeReinsert; rw [hocc, heq]; rfl, ?_, ?_, ?_, ?_⟩
  · exact inv_set_binding_same_name h2 inv2 sl e.binding h2.size hbn
  · show (modE h2.entries sl (fun x => { x with binding := e.binding })).length =
      nh.entries.length
    rw [length_modE, hlen2]
  · exact hsz2
  · show (bindingsList (modE h2.entries sl
      (fun x => { x with binding := e.binding }))).Perm (e.binding :: bindingsList nh.entries)
    have hocc2 : wasm_hash_entry_is_free (getE h2.entries sl) = false := by
      rw [isFree_false_iff]
      rw [← hbn]
      exact hnn
    have hocc3 : wasm_hash_entry_is_free
        ((fun x => { x with binding := e.binding }) (getE h2.entries sl)) = false := by
      rw [isFree_false_iff]
      exact hnn
    obtain ⟨T, D, hTD1, hTD2⟩ := bindingsList_set_occ h2.entries sl
      ((fun x => { x with binding := e.binding }) (getE h2.entries sl))
      (by rw [hlen2]; exact hslt) hocc2 hocc3
    show (bindingsList (h2.entries.set sl _)).Perm _
    rw [hTD2]
    refine List.Perm.trans List.perm_middle ?_
    refine List.Perm.cons _ ?_
    have h1 : ({ name := e.binding.name, index := 0 } :: (T ++ D)).Perm
        ({ name := e.binding.name, index := 0 } :: bindingsList nh.entries) := by
      refine List.Perm.trans ?_ hperm2
      rw [hTD1, hbind2]
      exact List.perm_middle.symm
    exact h1.cons_inv

theorem resize_fold :
    ∀ (olds : List WasmBindingHashEntry) (acc : WasmBindingHash),
      HashInvPos acc →
      (bindingsList acc.entries).length + (bindingsList olds).length ≤ acc.entries.length →
      ∃ h2, olds.foldlM resizeReinsert acc = some h2 ∧
        HashInvPos h2 ∧
        h2.entries.length = acc.entries.length ∧
        h2.size = acc.size ∧
        (bindingsList h2.entries).Perm (bindingsList acc.entries ++ bindingsList olds) := by
  intro olds
  induction olds with
  | nil =>
    intro acc inv _
    exact ⟨acc, rfl, inv, rfl, rfl, by simp [bindingsList]⟩
  | cons a t ih =>
    intro acc inv hle
    rw [List.foldlM_cons]
    rcases ha : wasm_hash_entry_is_free a with _ | _
    · -- occupied old entry: re-insert it
      have hta : bindingsList (a :: t) = a.binding :: bindingsList t :=
        bindingsList_cons_occ a t ha
      have hroom : (bindingsList acc.entries).length < acc.entries.length := by
        rw [hta] at hle
        simp at hle
        omega
      obtain ⟨nh2, hstep, inv2, hlen2, hsz2, hperm2⟩ := resize_step acc a inv ha hroom
      rw [hstep]
      obtain ⟨h2, hfold, invf, hlenf, hszf, hpermf⟩ := ih nh2 inv2 (by
        rw [hta] at hle
        have := hperm2.length_eq
        simp at this hle ⊢
        omega)
      refine ⟨h2, hfold, invf, by rw [hlenf, hlen2], by rw [hszf, hsz2], ?_⟩
      refine hpermf.trans ?_
      rw [hta]
      refine List.Perm.trans (List.Perm.append_right (bindingsList t) hperm2) ?_
      exact List.perm_middle.symm
    · -- free old entry: skipped
      have hta : bindingsList (a :: t) = bindingsList t := bindingsList_cons_free a t ha
      have hbody : resizeReinsert acc a = some acc := by
        unfold resizeReinsert
        rw [ha]
        rfl
      rw [hbody]
      show ∃ h2, t.foldlM resizeReinsert acc = some h2 ∧ _
      obtain ⟨h2, hfold, invf, hlenf, hszf, hpermf⟩ := ih acc inv (by rw [hta] at hle; exact hle)
      exact ⟨h2, hfold, invf, hlenf, hszf, by rw [hta]; exact hpermf⟩

theorem resize_spec (h : WasmBindingHash) (desired : Nat) (hd : desired ≠ 0)
    (hle : (bindingsList h.entries).length ≤ desired) :
    ∃ h2, wasm_hash_resize h desired = some h2 ∧
      HashInvPos h2 ∧
      h2.entries.length = desired ∧
      h2.size = 0 ∧
      (bindingsList h2.entries).Perm (bindingsList h.entries) := by
  have hdp : 0 < desired := Nat.pos_of_ne_zero hd
  obtain ⟨invF, hbF⟩ := fresh_inv desired hdp
  have hlenF : ((List.range desired).map (freshEntry desired)).length = desired := by
    simp
  obtain ⟨h2, hfold, inv2, hlen2, hsz2, hperm2⟩ := resize_fold h.entries
    { entries := (List.range desired).map (freshEntry desired),
      size := 0, free_head := some (desired - 1) } invF
    (by rw [hbF]; simp [hlenF]; exact hle)
  refine ⟨h2, ?_, inv2, by rw [hlen2]; exact hlenF, hsz2, ?_⟩
  · unfold wasm_hash_resize
    rw [if_neg hd]
    exact hfold
  · refine hperm2.trans ?_
    rw [hbF]
    simp

/-! ### wasm_insert_binding -/

theorem inv_set_size (h : WasmBindingHash) (inv : HashInvPos h) (s : Nat) :
    HashInvPos { entries := h.entries, size := s, free_head := h.free_head } :=
  ⟨inv.capPos, inv.freeOk, inv.chainsOk⟩

theorem notfull_free_head (h : WasmBindingHash) (inv : HashInvPos h)
    (hlt : (bindingsList h.entries).length < h.entries.length) : h.free_head ≠ none := by
  intro hn
  have := free_head_none_full h inv hn
  omega

theorem insert_eq_of (h : WasmBindingHash) (name : WasmStringSlice)
    (h1 h2 : WasmBindingHash) (r : WasmBindingHash × Nat)
    (e1 : (if h.size = 0 then wasm_hash_resize h 8 else pure h) = some h1)
    (e2 : (if h1.free_head = none then wasm_hash_resize h1 (h1.entries.length * 2)
            else pure h1) = some h2)
    (e3 : wasm_hash_new_entry h2 name = some r) :
    wasm_insert_binding h name = some ({ r.1 with size := r.1.size + 1 }, r.2) := by
  unfold wasm_insert_binding
  rw [e1]
  simp only [Option.some_bind']
  rw [e2]
  simp only [Option.some_bind']
  rw [e3]
  rfl

theorem insert_binding_spec (h : WasmBindingHash) (name : WasmStringSlice)
    (hok : HashOk h) (hnn : NonNullSlice name) :
    ∃ h2 sl, wasm_insert_binding h name = some (h2, sl) ∧
      HashInvPos h2 ∧ 0 < h2.size ∧
      h2.entries.length = (if h.entries.length = 0 then 8
        else if h.free_head = none then h.entries.length * 2
        else h.entries.length) ∧
      sl < h2.entries.length ∧
      (getE h2.entries sl).binding = { name := name, index := 0 } ∧
      (bindingsList h2.entries).Perm
        ({ name := name, index := 0 } :: bindingsList h.entries) := by
  rcases hok with hemp | ⟨inv, hsz⟩
  · -- first insert: lazy initialisation to capacity 8
    subst hemp
    obtain ⟨h1, hres, inv1, hlen1, hsz1, hperm1⟩ :=
      resize_spec emptyHash 8 (by decide) (by simp [emptyHash, bindingsList])
    have hb1 : bindingsList h1.entries = [] := by
      have : (bindingsList h1.entries).Perm ([] : List WasmBinding) := by
        simpa [emptyHash, bindingsList] using hperm1
      exact this.eq_nil
    have hfh1 : h1.free_head ≠ none := by
      apply notfull_free_head h1 inv1
      rw [hb1, hlen1]
      simp
    obtain ⟨h3, sl, heq3, inv3, hlen3, hsz3, hslt, hbind3, hperm3⟩ :=
      new_entry_spec h1 name inv1 hnn hfh1
    have hmain := insert_eq_of emptyHash name h1 h1 (h3, sl)
      (by rw [if_pos (show emptyHash.size = 0 from rfl)]; exact hres)
      (by rw [if_neg hfh1]; rfl)
      heq3
    refine ⟨_, sl, hmain, inv_set_size h3 inv3 _, by simp, ?_, ?_, hbind3, ?_⟩
    · show h3.entries.length = _
      rw [hlen3, hlen1]
      rfl
    · show sl < h3.entries.length
      rw [hlen3]
      exact hslt
    · show (bindingsList h3.entries).Perm _
      refine hperm3.trans ?_
      rw [hb1]
      simp [emptyHash, bindingsList]
  · -- an already-initialised hash: maybe double, then claim a slot
    have hszne : ¬ h.size = 0 := by omega
    by_cases hfh : h.free_head = none
    · -- free list exhausted: double the capacity
      have hfull := free_head_none_full h inv hfh
      have hcap := inv.capPos
      obtain ⟨h1, hres, inv1, hlen1, hsz1, hperm1⟩ :=
        resize_spec h (h.entries.length * 2) (by omega) (by omega)
      have hfh1 : h1.free_head ≠ none := by
        apply notfull_free_head h1 inv1
        rw [hperm1.length_eq, hlen1]
        omega
      obtain ⟨h3, sl, heq3, inv3, hlen3, hsz3, hslt, hbind3, hperm3⟩ :=
        new_entry_spec h1 name inv1 hnn hfh1
      have hmain := insert_eq_of h name h h1 (h3, sl)
        (by rw [if_neg hszne]; rfl)
        (by rw [if_pos hfh]; exact hres)
        heq3
      refine ⟨_, sl, hmain, inv_set_size h3 inv3 _, by simp, ?_, ?_, hbind3, ?_⟩
      · show h3.entries.length = _
        rw [hlen3, hlen1, if_neg (by omega), if_pos hfh]
      · show sl < h3.entries.length
        rw [hlen3]
        exact hslt
      · show (bindingsList h3.entries).Perm _
        exact hperm3.trans (hperm1.cons _)
    · -- room available: claim a slot directly
      have hcap := inv.capPos
      obtain ⟨h3, sl, heq3, inv3, hlen3, hsz3, hslt, hbind3, hperm3⟩ :=
        new_entry_spec h name inv hnn hfh
      have hmain := insert_eq_of h name h h (h3, sl)
        (by rw [if_neg hszne]; rfl)
        (by rw [if_neg hfh]; rfl)
        heq3
      refine ⟨_, sl, hmain, inv_set_size h3 inv3 _, by simp, ?_, ?_, hbind3, hperm3⟩
      · show h3.entries.length = _
        rw [hlen3, if_neg (by omega), if_neg hfh]
      · show sl < h3.entries.length
        rw [hlen3]
        exact hslt

theorem insert_with_index_spec (h : WasmBindingHash) (name : WasmStringSlice) (idx : Int)
    (hok : HashOk h) (hnn : NonNullSlice name) :
    ∃ h2, insertBindingWithIndex h name idx = some h2 ∧
      HashInvPos h2 ∧ 0 < h2.size ∧
      h2.entries.length = (if h.entries.length = 0 then 8
        else if h.free_head = none then h.entries.length * 2
        else h.entries.length) ∧
      (bindingsList h2.entries).Perm
        ({ name := name, index := idx } :: bindingsList h.entries) := by
  obtain ⟨h2, sl, hmain, inv2, hsz2, hlen2, hslt, hbind2, hperm2⟩ :=
    insert_binding_spec h name hok hnn
  have hbn : ({ name := (getE h2.entries sl).binding.name, index := idx } :
      WasmBinding).name = (getE h2.entries sl).binding.name := rfl
  have hform : modE h2.entries sl
      (fun x => { x with binding := { name := x.binding.name, index := idx } }) =
      modE h2.entries sl (fun x => { x with binding :=
        { name := (getE h2.entries sl).binding.name, index := idx } }) := rfl
  refine ⟨{ h2 with entries := modE h2.entries sl
                      (fun x => { x with binding :=
                        { name := x.binding.name, index := idx } }) },
    by unfold insertBindingWithIndex; rw [hmain]; rfl, ?_, ?_, ?_, ?_⟩
  · show HashInvPos _
    rw [show ({ h2 with entries := modE h2.entries sl
                          (fun x => { x with binding :=
                            { name := x.binding.name, index := idx } }) } :
        WasmBindingHash) =
        { entries := modE h2.entries sl (fun x => { x with binding :=
            { name := (getE h2.entries sl).binding.name, index := idx } }),
          size := h2.size, free_head := h2.free_head } from rfl]
    exact inv_set_binding_same_name h2 inv2 sl _ h2.size hbn.symm
  · exact hsz2
  · show (modE h2.entries sl
      (fun x => { x with binding := { name := x.binding.name, index := idx } })).length =
      (if h.entries.length = 0 then 8
        else if h.free_head = none then h.entries.length * 2
        else h.entries.length)
    rw [length_modE]
    exact hlen2
  · show (bindingsList (modE h2.entries sl
      (fun x => { x with binding := { name := x.binding.name, index := idx } }))).Perm _
    have hnn2 : NonNullSlice (getE h2.entries sl).binding.name := by
      rw [hbind2]
      exact hnn
    have hocc2 : wasm_hash_entry_is_free (getE h2.entries sl) = false :=
      (isFree_false_iff _).mpr hnn2
    have hocc3 : wasm_hash_entry_is_free
        ((fun x => { x with binding := { name := x.binding.name, index := idx } })
          (getE h2.entries sl)) = false := by
      rw [isFree_false_iff]
      exact hnn2
    obtain ⟨T, D, hTD1, hTD2⟩ := bindingsList_set_occ h2.entries sl
      ((fun x => { x with binding := { name := x.binding.name, index := idx } })
        (getE h2.entries sl))
      hslt hocc2 hocc3
    show (bindingsList (h2.entries.set sl _)).Perm _
    rw [hTD2]
    have hbname : (getE h2.entries sl).binding.name = name := by rw [hbind2]
    have hstep : (((fun (x : WasmBindingHashEntry) => { x with binding :=
        { name := x.binding.name, index := idx } }) (getE h2.entries sl)).binding :
        WasmBinding) = { name := name, index := idx } := by
      show ({ name := (getE h2.entries sl).binding.name, index := idx } : WasmBinding) = _
      rw [hbname]
    rw [hstep]
    refine List.Perm.trans List.perm_middle ?_
    refine List.Perm.cons _ ?_
    have h1 : ({ name := name, index := 0 } :: (T ++ D)).Perm
        ({ name := name, index := 0 } :: bindingsList h.entries) := by
      refine List.Perm.trans ?_ hperm2
      rw [hTD1, hbind2]
      exact List.perm_middle.symm
    exact h1.cons_inv

/-! ### Inserting a whole list of bindings -/

theorem insert_all_fold :
    ∀ (ops : List (WasmStringSlice × Int)) (acc : WasmBindingHash) (N : Nat),
      HashOk acc →
      (∀ p ∈ ops, NonNullSlice p.1) →
      (bindingsList acc.entries).length = N →
      ((acc = emptyHash ∧ N = 0) ∨ CapOk N acc.entries.length) →
      ∃ h2, ops.foldlM (fun h p => insertBindingWithIndex h p.1 p.2) acc = some h2 ∧
        HashOk h2 ∧
        (bindingsList h2.entries).Perm
          (bindingsList acc.entries ++
            ops.map (fun p => { name := p.1, index := p.2 })) ∧
        ((h2 = emptyHash ∧ N + ops.length = 0) ∨
          CapOk (N + ops.length) h2.entries.length) := by
  intro ops
  induction ops with
  | nil =>
    intro acc N hok _ _ hcap
    exact ⟨acc, rfl, hok, by simp, by simpa using hcap⟩
  | cons p t ih =>
    intro acc N hok hnn hN hcap
    obtain ⟨h2, hmain, inv2, hsz2, hlen2, hperm2⟩ :=
      insert_with_index_spec acc p.1 p.2 hok (hnn p (by simp))
    have hok2 : HashOk h2 := Or.inr ⟨inv2, hsz2⟩
    have hN2 : (bindingsList h2.entries).length = N + 1 := by
      rw [hperm2.length_eq]
      simp [hN]
    have hcap2 : CapOk (N + 1) h2.entries.length := by
      rcases hcap with ⟨hemp, hN0⟩ | ⟨k, hk, hcapk, hle, hgrow⟩
      · -- first insert: capacity becomes 8
        rw [hlen2, hemp]
        refine ⟨1, by omega, by simp [emptyHash], by simp [emptyHash]; omega,
          Or.inl rfl⟩
      · have hcapne : acc.entries.length ≠ 0 := by
          rw [hcapk]
          positivity
        have hinv : HashInvPos acc := by
          rcases hok with hemp | ⟨inv, _⟩
          · exact absurd (by rw [hemp]; rfl) hcapne
          · exact inv
        rw [hlen2, if_neg hcapne]
        by_cases hfh : acc.free_head = none
        · -- table was full: capacity doubles
          have hfull := free_head_none_full acc hinv hfh
          have hNeq : N = acc.entries.length := by omega
          rw [if_pos hfh]
          refine ⟨k + 1, by omega, ?_, ?_, ?_⟩
          · rw [hcapk]
            rw [show k + 1 - 1 = (k - 1) + 1 from by omega, pow_succ]
            ring
          · rw [hcapk] at hNeq
            rw [hcapk]
            have : (0:Nat) < 2 ^ (k - 1) := by positivity
            omega
          · refine Or.inr ?_
            rw [show k + 1 - 2 = k - 1 from by omega, ← hcapk]
            omega
        · -- room left: capacity unchanged
          have hnotfull := free_head_some_notfull acc hinv hfh
          rw [if_neg hfh]
          refine ⟨k, hk, hcapk, by omega, ?_⟩
          rcases hgrow with h1 | h1
          · exact Or.inl h1
          · exact Or.inr (by omega)
    obtain ⟨hf, hfold, hokf, hpermf, hcapf⟩ := ih h2 (N + 1) hok2
      (fun q hq => hnn q (by simp [hq])) hN2 (Or.inr hcap2)
    refine ⟨hf, ?_, hokf, ?_, ?_⟩
    · simp only [List.foldlM_cons]
      rw [hmain]
      simp only [Option.bind_eq_bind, Option.some_bind]
      exact hfold
    · refine hpermf.trans ?_
      refine List.Perm.trans (List.Perm.append_right _ hperm2) ?_
      rw [List.map_cons, List.cons_append]
      exact List.perm_middle.symm
    · rcases hcapf with ⟨_, hzero⟩ | hcapf
      · omega
      · refine Or.inr ?_
        have : N + (p :: t).length = (N + 1) + t.length := by simp; omega
        rw [this]
        exact hcapf

theorem insert_all_spec (ops : List (WasmStringSlice × Int))
    (hnn : ∀ p ∈ ops, NonNullSlice p.1) :
    ∃ h, insertAllBindings ops = some h ∧ HashOk h ∧
      (bindingsList h.entries).Perm
        (ops.map (fun p => { name := p.1, index := p.2 })) ∧
      (ops = [] ∨ CapOk ops.length h.entries.length) := by
  obtain ⟨h, hfold, hok, hperm, hcap⟩ := insert_all_fold ops emptyHash 0
    (Or.inl rfl) hnn (by simp [emptyHash, bindingsList]) (Or.inl ⟨rfl, rfl⟩)
  refine ⟨h, by unfold insertAllBindings; exact hfold, hok,
    by simpa [emptyHash, bindingsList] using hperm, ?_⟩
  rcases hcap with ⟨_, hz⟩ | hc
  · left
    cases ops with
    | nil => rfl
    | cons a t => simp at hz
  · right
    simpa using hc

theorem getE_of_mem (es : List WasmBindingHashEntry) (e : WasmBindingHashEntry)
    (he : e ∈ es) : ∃ j, j < es.length ∧ getE es j = e := by
  obtain ⟨j, hj, hje⟩ := List.mem_iff_getElem.mp he
  exact ⟨j, hj, by rw [getE_eq_getElem es j hj]; exact hje⟩

theorem lookup_found (h : WasmBindingHash) (inv : HashInvPos h)
    (b : WasmBinding) (hmem : b ∈ bindingsList h.entries) (hnn : NonNullSlice b.name) :
    ∃ b2 ∈ bindingsList h.entries, b2.name = b.name ∧
      find_binding_index_by_name h b.name = b2.index := by
  obtain ⟨e, he, hocc, hbe⟩ := (mem_bindingsList _ _).mp hmem
  obtain ⟨j, hj, hje⟩ := getE_of_mem h.entries e he
  have heq : wasm_string_slices_are_equal (getE h.entries j).binding.name b.name = true := by
    rw [hje, hbe]
    exact sliceEq_refl _ hnn
  obtain ⟨i, hi, hiocc, hieq, hfind⟩ :=
    find_complete_pos h inv b.name j hj (by rw [hje]; exact hocc) heq
  refine ⟨(getE h.entries i).binding, ?_, sliceEq_eq _ _ hieq, hfind⟩
  exact (mem_bindingsList _ _).mpr ⟨getE h.entries i, getE_mem h.entries i hi, hiocc, rfl⟩

theorem nodup_fst_unique :
    ∀ (l : List (WasmStringSlice × Int)),
      (l.map Prod.fst).Nodup →
      ∀ p ∈ l, ∀ q ∈ l, p.1 = q.1 → p = q := by
  intro l
  induction l with
  | nil => intro _ p hp; simp at hp
  | cons a t ih =>
    intro hnd p hp q hq hpq
    have hnd2 : (t.map Prod.fst).Nodup := (List.nodup_cons.mp hnd).2
    have hna : a.1 ∉ t.map Prod.fst := (List.nodup_cons.mp hnd).1
    rcases List.mem_cons.mp hp with rfl | hpt
    · rcases List.mem_cons.mp hq with rfl | hqt
      · rfl
      · exact absurd (by rw [hpq]; exact List.mem_map_of_mem _ hqt) hna
    · rcases List.mem_cons.mp hq with rfl | hqt
      · exact absurd (by rw [← hpq]; exact List.mem_map_of_mem _ hpt) hna
      · exact ih hnd2 p hpt q hqt hpq

theorem insert_all_det (ops : List (WasmStringSlice × Int)) (h : WasmBindingHash)
    (hnn : ∀ p ∈ ops, NonNullSlice p.1) (hE : insertAllBindings ops = some h) :
    HashOk h ∧
      (bindingsList h.entries).Perm
        (ops.map (fun p => { name := p.1, index := p.2 })) ∧
      (ops = [] ∨ CapOk ops.length h.entries.length) := by
  obtain ⟨h2, hf, hok, hperm, hcap⟩ := insert_all_spec ops hnn
  rw [hE] at hf
  obtain rfl : h = h2 := Option.some.inj hf
  exact ⟨hok, hperm, hcap⟩

/-- C1: inserting any sequence of distinct names (each with its recorded
    index) into an initially empty binding table — across any number of
    lazily triggered capacity growths — leaves every name looking up to
    exactly the index recorded at its insertion. -/
theorem C1_distinct_insert_lookup (ops : List (WasmStringSlice × Int))
    (h : WasmBindingHash)
    (hnn : ∀ p ∈ ops, NonNullSlice p.1)
    (hnd : (ops.map Prod.fst).Nodup)
    (hE : insertAllBindings ops = some h) :
    ∀ p ∈ ops, find_binding_index_by_name h p.1 = p.2 := by
  obtain ⟨hok, hperm, _⟩ := insert_all_det ops h hnn hE
  intro p hp
  have hbmem : ({ name := p.1, index := p.2 } : WasmBinding) ∈ bindingsList h.entries :=
    hperm.mem_iff.mpr (List.mem_map_of_mem _ hp)
  have hinv : HashInvPos h := by
    rcases hok with hemp | ⟨inv, _⟩
    · rw [hemp] at hbmem
      simp [emptyHash, bindingsList] at hbmem
    · exact inv
  obtain ⟨b2, hb2mem, hb2name, hfind⟩ := lookup_found h hinv _ hbmem (hnn p hp)
  have hb2 : b2 ∈ ops.map (fun p => ({ name := p.1, index := p.2 } : WasmBinding)) :=
    hperm.mem_iff.mp hb2mem
  obtain ⟨q, hq, hqb⟩ := List.mem_map.mp hb2
  have hq1 : q.1 = p.1 := by
    have h1 : ({ name := q.1, index := q.2 } : WasmBinding).name = b2.name := by
      rw [hqb]
    simpa using h1.trans hb2name
  have hqp : q = p := nodup_fst_unique ops hnd q hq p hp hq1
  have hidx : b2.index = p.2 := by
    rw [← hqb, hqp]
  rw [hfind, hidx]

theorem C1_distinct_insert_lookup_witness : ∃ h, insertAllBindings ops20 = some h ∧
    ∀ p ∈ ops20, find_binding_index_by_name h p.1 = p.2 := by
  rcases hE : insertAllBindings ops20 with _ | h
  · have hs : (insertAllBindings ops20).isSome = true := by decide
    rw [hE] at hs
    exact absurd hs (by simp)
  · exact ⟨h, rfl, C1_distinct_insert_lookup ops20 h (by decide) (by decide) hE⟩

/-- C2 counterexample: inserting the one-byte names [0], [8], [8] (indices
    10, 1, 2) into an empty table and looking up [8] returns 2 — the index
    recorded at the SECOND insertion of [8], not the first. -/
theorem C2_first_wins_counterexample :
    ∃ h, insertAllBindings dupOps = some h ∧
      (.str [8], (1 : Int)) ∈ dupOps ∧ (.str [8], (2 : Int)) ∈ dupOps ∧
      find_binding_index_by_name h (.str [8]) = 2 := by
  rcases hE : insertAllBindings dupOps with _ | h
  · have hs : (insertAllBindings dupOps).isSome = true := by decide
    rw [hE] at hs
    exact absurd hs (by simp)
  · refine ⟨h, rfl, by decide, by decide, ?_⟩
    have hv : (insertAllBindings dupOps).map
        (fun h2 => find_binding_index_by_name h2 (.str [8])) = some 2 := by decide
    rw [hE] at hv
    simpa using hv

/-- C2 (corrected): looking up a name that was inserted (possibly several
    times) returns the index recorded at ONE of its insertions — not
    necessarily the first; with duplicate insertions the splice order
    decides which entry the chain walk meets first. -/
theorem C2_lookup_returns_some_insertion (ops : List (WasmStringSlice × Int))
    (h : WasmBindingHash) (name : WasmStringSlice) (idx : Int)
    (hnn : ∀ p ∈ ops, NonNullSlice p.1)
    (hE : insertAllBindings ops = some h)
    (hmem : (name, idx) ∈ ops) :
    ∃ idx2, (name, idx2) ∈ ops ∧ find_binding_index_by_name h name = idx2 := by
  obtain ⟨hok, hperm, _⟩ := insert_all_det ops h hnn hE
  have hnns : NonNullSlice name := hnn (name, idx) hmem
  have hbmem : ({ name := name, index := idx } : WasmBinding) ∈ bindingsList h.entries :=
    hperm.mem_iff.mpr (List.mem_map_of_mem _ hmem)
  have hinv : HashInvPos h := by
    rcases hok with hemp | ⟨inv, _⟩
    · rw [hemp] at hbmem
      simp [emptyHash, bindingsList] at hbmem
    · exact inv
  obtain ⟨b2, hb2mem, hb2name, hfind⟩ := lookup_found h hinv _ hbmem hnns
  have hb2 : b2 ∈ ops.map (fun p => ({ name := p.1, index := p.2 } : WasmBinding)) :=
    hperm.mem_iff.mp hb2mem
  obtain ⟨q, hq, hqb⟩ := List.mem_map.mp hb2
  have hq1 : q.1 = name := by
    have h1 : ({ name := q.1, index := q.2 } : WasmBinding).name = b2.name := by
      rw [hqb]
    simpa using h1.trans hb2name
  refine ⟨q.2, ?_, ?_⟩
  · have hqe : q = (name, q.2) := by
      rw [← hq1]
    rw [← hqe]
    exact hq
  · rw [hfind, ← hqb]

theorem C2_lookup_returns_some_insertion_witness :
    ∃ h, insertAllBindings dupOps = some h ∧
      ∃ idx2, (.str [8], idx2) ∈ dupOps ∧
        find_binding_index_by_name h (.str [8]) = idx2 := by
  rcases hE : insertAllBindings dupOps with _ | h
  · have hs : (insertAllBindings dupOps).isSome = true := by decide
    rw [hE] at hs
    exact absurd hs (by simp)
  · exact ⟨h, rfl, C2_lookup_returns_some_insertion dupOps h (.str [8]) 1
      (by decide) hE (by decide)⟩

/-- C3: in any table built by inserting a sequence of (non-NULL) names
    from the empty table — insertions that may relocate displaced
    occupants and rebuild the table on growth — every occupied entry is
    reachable from the slot its own name hashes to by following the
    forward links. -/
theorem C3_chain_reachability (ops : List (WasmStringSlice × Int)) (h : WasmBindingHash)
    (hnn : ∀ p ∈ ops, NonNullSlice p.1)
    (hE : insertAllBindings ops = some h) :
    ∀ j, j < h.entries.length →
      wasm_hash_entry_is_free (getE h.entries j) = false →
      ∃ ch, ChainAt h.entries
        (mainIdx h.entries.length (getE h.entries j).binding.name) ch ∧ j ∈ ch := by
  obtain ⟨hok, hperm, _⟩ := insert_all_det ops h hnn hE
  intro j hj hocc
  rcases hok with hemp | ⟨inv, _⟩
  · rw [hemp] at hj
    simp [emptyHash] at hj
  · exact inv.chainsOk j hj hocc

theorem C3_chain_reachability_witness :
    ∃ h, insertAllBindings ops20 = some h ∧
      ∀ j, j < h.entries.length →
        wasm_hash_entry_is_free (getE h.entries j) = false →
        ∃ ch, ChainAt h.entries
          (mainIdx h.entries.length (getE h.entries j).binding.name) ch ∧ j ∈ ch := by
  rcases hE : insertAllBindings ops20 with _ | h
  · have hs : (insertAllBindings ops20).isSome = true := by decide
    rw [hE] at hs
    exact absurd hs (by simp)
  · exact ⟨h, rfl, C3_chain_reachability ops20 h (by decide) hE⟩

/-- C4: only inserting into an initially empty table, (a) the capacity is
    always `8 * 2^(k-1)` for some k ≥ 1 once any insert happened, with the
    k-th growth the one that set it; and (b) a single insert grows the
    table exactly when it finds the lazily initialised table absent
    (first insert, capacity 8) or the free list empty (doubling), and
    otherwise leaves the capacity unchanged. -/
theorem C4_capacity_growth :
    (∀ (ops : List (WasmStringSlice × Int)) (h : WasmBindingHash),
      (∀ p ∈ ops, NonNullSlice p.1) → insertAllBindings ops = some h → ops ≠ [] →
      ∃ k, 0 < k ∧ h.entries.length = 8 * 2 ^ (k - 1) ∧
        ops.length ≤ h.entries.length ∧
        (k = 1 ∨ 8 * 2 ^ (k - 2) < ops.length)) ∧
    (∀ (h : WasmBindingHash) (name : WasmStringSlice) (r : WasmBindingHash × Nat),
      HashOk h → NonNullSlice name → wasm_insert_binding h name = some r →
      r.1.entries.length = (if h.entries.length = 0 then 8
        else if h.free_head = none then h.entries.length * 2
        else h.entries.length)) := by
  constructor
  · intro ops h hnn hE hne
    obtain ⟨_, _, hcap⟩ := insert_all_det ops h hnn hE
    rcases hcap with he | ⟨k, hk, hck, hle, hgrow⟩
    · exact absurd he hne
    · exact ⟨k, hk, hck, hle, hgrow⟩
  · intro h name r hok hnn hE
    obtain ⟨h2, sl, hmain, _, _, hlen2, _, _, _⟩ := insert_binding_spec h name hok hnn
    rw [hE] at hmain
    obtain rfl : r = (h2, sl) := Option.some.inj hmain
    exact hlen2

theorem C4_capacity_growth_witness :
    ∃ h, insertAllBindings ops20 = some h ∧
      ∃ k, 0 < k ∧ h.entries.length = 8 * 2 ^ (k - 1) ∧
        ops20.length ≤ h.entries.length ∧
        (k = 1 ∨ 8 * 2 ^ (k - 2) < ops20.length) := by
  rcases hE : insertAllBindings ops20 with _ | h
  · have hs : (insertAllBindings ops20).isSome = true := by decide
    rw [hE] at hs
    exact absurd hs (by simp)
  · exact ⟨h, rfl, C4_capacity_growth.1 ops20 h (by decide) hE (by decide)⟩

/-- C5: resolving a variable reference: an Index-typed reference passes its
    stored index through verbatim whatever the table holds; a Name-typed
    reference is exactly the table lookup, which returns -1 on a
    capacity-0 table and -1 for any name never inserted. -/
theorem C5_resolve_var :
    (∀ (h : WasmBindingHash) (i : Int), wasm_get_index_from_var h (.index i) = i) ∧
    (∀ (h : WasmBindingHash) (n : WasmStringSlice),
      wasm_get_index_from_var h (.name n) = find_binding_index_by_name h n) ∧
    (∀ (h : WasmBindingHash) (n : WasmStringSlice), h.entries.length = 0 →
      find_binding_index_by_name h n = -1) ∧
    (∀ (ops : List (WasmStringSlice × Int)) (h : WasmBindingHash)
        (name : WasmStringSlice),
      (∀ p ∈ ops, NonNullSlice p.1) → insertAllBindings ops = some h →
      name ∉ ops.map Prod.fst → find_binding_index_by_name h name = -1) := by
  refine ⟨fun h i => rfl, fun h n => rfl, ?_, ?_⟩
  · intro h n hlen
    unfold find_binding_index_by_name
    rw [if_pos hlen]
  · intro ops h name hnn hE hnb
    obtain ⟨hok, hperm, _⟩ := insert_all_det ops h hnn hE
    apply find_no_match
    intro e he
    rcases hocc : wasm_hash_entry_is_free e with _ | _
    · -- an occupied entry holds one of the inserted names, none of which is `name`
      rcases heq : wasm_string_slices_are_equal e.binding.name name with _ | _
      · rfl
      · exfalso
        have hbmem : e.binding ∈ bindingsList h.entries :=
          (mem_bindingsList _ _).mpr ⟨e, he, hocc, rfl⟩
        have hb2 : e.binding ∈ ops.map
            (fun p => ({ name := p.1, index := p.2 } : WasmBinding)) :=
          hperm.mem_iff.mp hbmem
        obtain ⟨q, hq, hqb⟩ := List.mem_map.mp hb2
        have hname : e.binding.name = name := sliceEq_eq _ _ heq
        have : name ∈ ops.map Prod.fst := by
          refine List.mem_map.mpr ⟨q, hq, ?_⟩
          have h1 : ({ name := q.1, index := q.2 } : WasmBinding).name = e.binding.name := by
            rw [hqb]
          simpa using h1.trans hname
        exact hnb this
    · -- a free entry has a NULL name, equal to nothing
      have hnull : e.binding.name = .null := (isFree_true_iff e).mp hocc
      rw [hnull]
      exact sliceEq_null_left name

theorem C5_resolve_var_witness :
    wasm_get_index_from_var emptyHash (.index 7) = 7 ∧
    ∃ h, insertAllBindings ops20 = some h ∧
      find_binding_index_by_name h missingName = -1 := by
  refine ⟨C5_resolve_var.1 emptyHash 7, ?_⟩
  rcases hE : insertAllBindings ops20 with _ | h
  · have hs : (insertAllBindings ops20).isSome = true := by decide
    rw [hE] at hs
    exact absurd hs (by simp)
  · exact ⟨h, rfl, C5_resolve_var.2.2.2 ops20 h missingName (by decide) hE (by decide)⟩

/-! ### wasm_extend_type_bindings -/

theorem extend_step (lt : Int) (hsh : WasmBindingHash) (e : WasmBindingHashEntry)
    (hok : HashOk hsh) (hocc : wasm_hash_entry_is_free e = false) :
    ∃ h2, extendReinsert lt hsh e = some h2 ∧
      HashOk h2 ∧
      (bindingsList h2.entries).Perm
        ({ name := e.binding.name, index := e.binding.index + lt } ::
          bindingsList hsh.entries) := by
  have hnn : NonNullSlice e.binding.name := (isFree_false_iff e).mp hocc
  obtain ⟨h2, sl, hmain, inv2, hsz2, hlen2, hslt, hbind2, hperm2⟩ :=
    insert_binding_spec hsh e.binding.name hok hnn
  have hbn : ({ name := e.binding.name, index := e.binding.index + lt } :
      WasmBinding).name = (getE h2.entries sl).binding.name := by
    rw [hbind2]
  refine ⟨{ h2 with entries := modE h2.entries sl
                      (fun x => { x with binding :=
                        { name := e.binding.name,
                          index := e.binding.index + lt } }) },
    by unfold extendReinsert; rw [hocc, hmain]; rfl, ?_, ?_⟩
  · refine Or.inr ⟨?_, hsz2⟩
    rw [show ({ h2 with entries := modE h2.entries sl
                          (fun x => { x with binding :=
                            { name := e.binding.name,
                              index := e.binding.index + lt } }) } :
        WasmBindingHash) =
        { entries := modE h2.entries sl (fun x => { x with binding :=
            { name := e.binding.name, index := e.binding.index + lt } }),
          size := h2.size, free_head := h2.free_head } from rfl]
    exact inv_set_binding_same_name h2 inv2 sl _ h2.size hbn
  · show (bindingsList (modE h2.entries sl
      (fun x => { x with binding :=
        { name := e.binding.name, index := e.binding.index + lt } }))).Perm _
    have hocc2 : wasm_hash_entry_is_free (getE h2.entries sl) = false := by
      rw [isFree_false_iff, ← hbn]
      exact hnn
    have hocc3 : wasm_hash_entry_is_free
        ((fun x => { x with binding :=
          { name := e.binding.name, index := e.binding.index + lt } })
            (getE h2.entries sl)) = false := by
      rw [isFree_false_iff]
      exact hnn
    obtain ⟨T, D, hTD1, hTD2⟩ := bindingsList_set_occ h2.entries sl
      ((fun x => { x with binding :=
        { name := e.binding.name, index := e.binding.index + lt } })
          (getE h2.entries sl))
      hslt hocc2 hocc3
    show (bindingsList (h2.entries.set sl _)).Perm _
    rw [hTD2]
    refine List.Perm.trans List.perm_middle ?_
    refine List.Perm.cons _ ?_
    have h1 : ({ name := e.binding.name, index := 0 } :: (T ++ D)).Perm
        ({ name := e.binding.name, index := 0 } :: bindingsList hsh.entries) := by
      refine List.Perm.trans ?_ hperm2
      rw [hTD1, hbind2]
      exact List.perm_middle.symm
    exact h1.cons_inv

theorem extend_fold :
    ∀ (olds : List WasmBindingHashEntry) (acc : WasmBindingHash) (lt : Int),
      HashOk acc →
      ∃ h2, olds.foldlM (extendReinsert lt) acc = some h2 ∧ HashOk h2 ∧
        (bindingsList h2.entries).Perm
          (bindingsList acc.entries ++
            (bindingsList olds).map
              (fun b => { name := b.name, index := b.index + lt })) := by
  intro olds
  induction olds with
  | nil =>
    intro acc lt hok
    exact ⟨acc, rfl, hok, by simp [bindingsList]⟩
  | cons a t ih =>
    intro acc lt hok
    rw [List.foldlM_cons]
    rcases ha : wasm_hash_entry_is_free a with _ | _
    · obtain ⟨h2, hstep, hok2, hperm2⟩ := extend_step lt acc a hok ha
      rw [hstep]
      simp only [Option.bind_eq_bind, Option.some_bind]
      obtain ⟨hf, hfold, hokf, hpermf⟩ := ih h2 lt hok2
      refine ⟨hf, hfold, hokf, ?_⟩
      refine hpermf.trans ?_
      rw [bindingsList_cons_occ a t ha, List.map_cons]
      refine List.Perm.trans (List.Perm.append_right _ hperm2) ?_
      rw [List.cons_append]
      exact List.perm_middle.symm
    · have hbody : extendReinsert lt acc a = some acc := by
        unfold extendReinsert
        rw [ha]
        rfl
      rw [hbody]
      simp only [Option.bind_eq_bind, Option.some_bind]
      obtain ⟨hf, hfold, hokf, hpermf⟩ := ih acc lt hok
      refine ⟨hf, hfold, hokf, ?_⟩
      rw [bindingsList_cons_free a t ha]
      exact hpermf

/-- C6: extending a type-binding pair `dst` by `src` appends `src`'s type
    list onto `dst`'s and re-inserts every occupied binding of `src`'s
    table into `dst`'s table under the same name with the index shifted by
    the length `dst`'s type list had before the append. -/
theorem C6_extend_type_bindings (dst src : WasmTypeBindings)
    (hok : HashOk dst.bindings) :
    ∃ out, wasm_extend_type_bindings dst src = some out ∧
      out.types = dst.types ++ src.types ∧
      (bindingsList out.bindings.entries).Perm
        (bindingsList dst.bindings.entries ++
          (bindingsList src.bindings.entries).map
            (fun b => { name := b.name,
                        index := b.index + (dst.types.length : Int) })) := by
  obtain ⟨h2, hfold, hok2, hperm⟩ :=
    extend_fold src.bindings.entries dst.bindings dst.types.length hok
  refine ⟨{ types := dst.types ++ src.types, bindings := h2 }, ?_, rfl, hperm⟩
  unfold wasm_extend_type_bindings
  rw [hfold]
  rfl

theorem C6_extend_type_bindings_witness :
    ∃ hsrc, insertAllBindings [(.str [0], (0 : Int))] = some hsrc ∧
      ∃ out, wasm_extend_type_bindings ⟨[5, 6], emptyHash⟩ ⟨[9], hsrc⟩ = some out ∧
        out.types = [5, 6] ++ [9] ∧
        (bindingsList out.bindings.entries).Perm
          (bindingsList emptyHash.entries ++
            (bindingsList hsrc.entries).map
              (fun b => { name := b.name, index := b.index + (2 : Int) })) := by
  rcases hE : insertAllBindings [(.str [0], (0 : Int))] with _ | hsrc
  · have hs : (insertAllBindings [(.str [0], (0 : Int))]).isSome = true := by decide
    rw [hE] at hs
    exact absurd hs (by simp)
  · exact ⟨hsrc, rfl,
      C6_extend_type_bindings ⟨[5, 6], emptyHash⟩ ⟨[9], hsrc⟩ (Or.inl rfl)⟩

/-! ### wasm_print_memory -/

theorem printMemoryFrom_pos (data : List Nat) (offset : Nat) (pc : Bool)
    (desc : Option String) (p : Nat) (h : p < data.length) :
    printMemoryFrom data offset pc desc p =
      wasm_print_memory_line data offset pc desc p ::
        printMemoryFrom data offset pc desc (p + 16) := by
  rw [printMemoryFrom]
  rw [dif_pos h]

theorem printMemoryFrom_neg (data : List Nat) (offset : Nat) (pc : Bool)
    (desc : Option String) (p : Nat) (h : ¬ p < data.length) :
    printMemoryFrom data offset pc desc p = [] := by
  rw [printMemoryFrom]
  rw [dif_neg h]

theorem printFrom_length :
    ∀ (fuel : Nat) (data : List Nat) (offset : Nat) (pc : Bool) (desc : Option String)
      (p : Nat), data.length - p ≤ fuel →
      (printMemoryFrom data offset pc desc p).length = (data.length - p + 15) / 16 := by
  intro fuel
  induction fuel with
  | zero =>
    intro data offset pc desc p hle
    rw [printMemoryFrom_neg data offset pc desc p (by omega)]
    simp
    omega
  | succ f ih =>
    intro data offset pc desc p hle
    by_cases h : p < data.length
    · rw [printMemoryFrom_pos data offset pc desc p h]
      have hr := ih data offset pc desc (p + 16) (by omega)
      simp only [List.length_cons, hr]
      omega
    · rw [printMemoryFrom_neg data offset pc desc p h]
      simp
      omega

theorem printFrom_get :
    ∀ (i p : Nat) (data : List Nat) (offset : Nat) (pc : Bool) (desc : Option String),
      p + 16 * i < data.length →
      (printMemoryFrom data offset pc desc p).getD i "" =
        wasm_print_memory_line data offset pc desc (p + 16 * i) := by
  intro i
  induction i with
  | zero =>
    intro p data offset pc desc h
    rw [printMemoryFrom_pos _ _ _ _ _ (by omega)]
    simp
  | succ j ih =>
    intro p data offset pc desc h
    rw [printMemoryFrom_pos _ _ _ _ _ (by omega)]
    have hr := ih (p + 16) data offset pc desc (by omega)
    rw [show p + 16 + 16 * j = p + 16 * (j + 1) from by ring] at hr
    simpa using hr

theorem hexDigits_length_le :
    ∀ (fuel n k : Nat), n < 16 ^ k → (hexDigits fuel n).length ≤ k := by
  intro fuel
  induction fuel with
  | zero => intro n k _; simp [hexDigits]
  | succ f ih =>
    intro n k hn
    unfold hexDigits
    by_cases h0 : n = 0
    · simp [h0]
    · rw [if_neg h0]
      have hk : k ≠ 0 := by
        intro hk0
        rw [hk0] at hn
        simp at hn
        omega
      have hdiv : n / 16 < 16 ^ (k - 1) := by
        have h16 : 16 ^ k = 16 * 16 ^ (k - 1) := by
          rw [← pow_succ']
          congr 1
          omega
        rw [h16] at hn
        exact Nat.div_lt_of_lt_mul hn
      have hr := ih (n / 16) (k - 1) hdiv
      simp only [List.length_append, List.length_cons, List.length_nil]
      omega

theorem toHexMin_length (n : Nat) (h : n < 16 ^ 7) : (toHexMin n 7).length = 7 := by
  unfold toHexMin
  by_cases h0 : n = 0
  · rw [if_pos h0]
    rfl
  · rw [if_neg h0]
    have hle : (hexDigits n n).length ≤ 7 := hexDigits_length_le n n 7 h
    show (List.replicate (7 - (hexDigits n n).length) '0' ++ hexDigits n n).length = 7
    simp only [List.length_append, List.length_replicate]
    omega

/-- C7: the memory dump emits one line per 16 input bytes — ceil(S/16)
    lines in all; the i-th line is the line for the window at buffer
    offset 16*i; every line starts with the 7-hex-digit zero-padded
    address (buffer offset + display offset) followed by ": ", the byte
    groups (pairs separated by single spaces, absent trailing bytes as two
    spaces each) and the character column; the description is appended
    only to a line containing the final byte; dumping 17 bytes yields
    exactly these 2 lines, the description on the second. -/
theorem C7_print_memory_format :
    (∀ (data : List Nat) (offset : Nat) (pc : Bool) (desc : Option String),
      (wasm_print_memory data offset pc desc).length = (data.length + 15) / 16) ∧
    (∀ (data : List Nat) (offset : Nat) (pc : Bool) (desc : Option String) (i : Nat),
      16 * i < data.length →
      (wasm_print_memory data offset pc desc).getD i "" =
        wasm_print_memory_line data offset pc desc (16 * i)) ∧
    (∀ (data : List Nat) (offset : Nat) (pc : Bool) (desc : Option String) (l : Nat),
      l + offset < 16 ^ 7 →
      ∃ rest, wasm_print_memory_line data offset pc desc l =
        toHexMin (l + offset) 7 ++ ": " ++ rest ∧
        (toHexMin (l + offset) 7).length = 7 ∧
        rest = dumpGroups data l ++ " " ++ dumpChars data l pc ++
          (if data.length ≤ l + 16 then
            (match desc with | some d => "  ; " ++ d | none => "")
           else "")) ∧
    (∀ (data : List Nat) (offset : Nat) (pc : Bool) (d : String) (l : Nat),
      ¬ data.length ≤ l + 16 →
      wasm_print_memory_line data offset pc (some d) l =
        wasm_print_memory_line data offset pc none l) ∧
    wasm_print_memory (List.replicate 17 0) 0 false (some "hi") =
      ["0000000: 0000 0000 0000 0000 0000 0000 0000 0000  ",
       "0000010: 00                                         ; hi"] := by
  refine ⟨?_, ?_, ?_, ?_, ?_⟩
  · intro data offset pc desc
    have := printFrom_length data.length data offset pc desc 0 (by omega)
    simpa using this
  · intro data offset pc desc i hi
    have := printFrom_get i 0 data offset pc desc (by omega)
    simpa using this
  · intro data offset pc desc l hlt
    refine ⟨dumpGroups data l ++ " " ++ dumpChars data l pc ++
      (if data.length ≤ l + 16 then
        (match desc with | some d => "  ; " ++ d | none => "")
       else ""), ?_, toHexMin_length _ hlt, rfl⟩
    unfold wasm_print_memory_line
    rw [Nat.mod_eq_of_lt (lt_of_lt_of_le hlt (by norm_num))]
    simp only [String.append_assoc]
  · intro data offset pc d l hlt
    unfold wasm_print_memory_line
    rw [if_neg hlt, if_neg hlt]
  · unfold wasm_print_memory
    rw [printMemoryFrom_pos _ _ _ _ _ (by norm_num),
        printMemoryFrom_pos _ _ _ _ _ (by norm_num),
        printMemoryFrom_neg _ _ _ _ _ (by norm_num)]
    rfl

theorem C7_print_memory_format_witness :
    (wasm_print_memory (List.replicate 17 0) 0 false (some "hi")).length = (17 + 15) / 16 ∧
    (wasm_print_memory (List.replicate 17 0) 0 false (some "hi")).getD 1 "" =
      wasm_print_memory_line (List.replicate 17 0) 0 false (some "hi") 16 := by
  constructor
  · have := C7_print_memory_format.1 (List.replicate 17 0) 0 false (some "hi")
    simpa using this
  · have := C7_print_memory_format.2.1 (List.replicate 17 0) 0 false (some "hi") 1
      (by norm_num)
    simpa using this

/-! ### The bounds-checked getters and the unchecked export lookup -/

theorem cIndex_get (l : List Nat) (i : Int)
    (h : ¬ (i < 0 ∨ (l.length : Int) ≤ i)) :
    (cIndex l i).map some = .ok (some (l.getD i.toNat 0)) := by
  have hc : 0 ≤ i ∧ i.toNat < l.length := by omega
  unfold cIndex
  rw [if_pos hc]
  rfl

/-- C8: the three pointer-returning getters bounds-check the resolved
    index: a negative index (an unbound name's -1 included) or one at or
    past the vector's size yields NULL, and otherwise the vector element
    at that index is returned — the vector access is never out of range,
    and no getter call faults. -/
theorem C8_getters_bounds_checked :
    ∀ (m : WasmModule) (v : WasmVar),
      wasm_get_func_by_var m v = .ok
        (if wasm_get_index_from_var m.func_bindings v < 0 ∨
            (m.funcs.length : Int) ≤ wasm_get_index_from_var m.func_bindings v
         then none
         else some (m.funcs.getD (wasm_get_index_from_var m.func_bindings v).toNat 0)) ∧
      wasm_get_func_type_by_var m v = .ok
        (if wasm_get_index_from_var m.func_type_bindings v < 0 ∨
            (m.func_types.length : Int) ≤ wasm_get_index_from_var m.func_type_bindings v
         then none
         else some (m.func_types.getD
           (wasm_get_index_from_var m.func_type_bindings v).toNat 0)) ∧
      wasm_get_import_by_var m v = .ok
        (if wasm_get_index_from_var m.import_bindings v < 0 ∨
            (m.imports.length : Int) ≤ wasm_get_index_from_var m.import_bindings v
         then none
         else some (m.imports.getD
           (wasm_get_index_from_var m.import_bindings v).toNat 0)) := by
  intro m v
  refine ⟨?_, ?_, ?_⟩
  · simp only [wasm_get_func_by_var]
    by_cases hc : wasm_get_index_from_var m.func_bindings v < 0 ∨
        (m.funcs.length : Int) ≤ wasm_get_index_from_var m.func_bindings v
    · rw [if_pos hc, if_pos hc]
    · rw [if_neg hc, if_neg hc]
      exact cIndex_get _ _ hc
  · simp only [wasm_get_func_type_by_var]
    by_cases hc : wasm_get_index_from_var m.func_type_bindings v < 0 ∨
        (m.func_types.length : Int) ≤ wasm_get_index_from_var m.func_type_bindings v
    · rw [if_pos hc, if_pos hc]
    · rw [if_neg hc, if_neg hc]
      exact cIndex_get _ _ hc
  · simp only [wasm_get_import_by_var]
    by_cases hc : wasm_get_index_from_var m.import_bindings v < 0 ∨
        (m.imports.length : Int) ≤ wasm_get_index_from_var m.import_bindings v
    · rw [if_pos hc, if_pos hc]
    · rw [if_neg hc, if_neg hc]
      exact cIndex_get _ _ hc

/-- C9: `wasm_get_export_by_name` does not bounds-check the bound index.
    When every index stored in the export binding table is a valid
    position of the exports vector, the access is in range: the call
    returns NULL exactly for an unbound name and otherwise the export at
    the bound index.  Without that precondition the unchecked access can
    go out of range (witnessed by a table binding index 5 against an empty
    exports vector). -/
theorem C9_export_by_name :
    (∀ (m : WasmModule) (name : WasmStringSlice),
      (∀ b ∈ bindingsList m.export_bindings.entries,
        0 ≤ b.index ∧ b.index < (m.exports.length : Int)) →
      ∃ r, wasm_get_export_by_name m name = .ok r ∧
        (r = none ↔ find_binding_index_by_name m.export_bindings name = -1) ∧
        (find_binding_index_by_name m.export_bindings name ≠ -1 →
          r = some (m.exports.getD
            (find_binding_index_by_name m.export_bindings name).toNat 0))) ∧
    (∃ (m : WasmModule) (name : WasmStringSlice),
      wasm_get_export_by_name m name = .error ()) := by
  constructor
  · intro m name hpre
    by_cases hf : find_binding_index_by_name m.export_bindings name = -1
    · refine ⟨none, ?_, by simp [hf], by intro hne; exact absurd hf hne⟩
      simp only [wasm_get_export_by_name]
      rw [if_pos hf]
    · rcases find_sound m.export_bindings name with h1 | ⟨e, he, hocc, heq, hidx⟩
      · exact absurd h1 hf
      · have hbm : e.binding ∈ bindingsList m.export_bindings.entries :=
          (mem_bindingsList _ _).mpr ⟨e, he, hocc, rfl⟩
        have hrange := hpre e.binding hbm
        rw [hidx] at hrange
        refine ⟨some (m.exports.getD
          (find_binding_index_by_name m.export_bindings name).toNat 0), ?_,
          by simp [hf], fun _ => rfl⟩
        simp only [wasm_get_export_by_name]
        rw [if_neg hf]
        exact cIndex_get _ _ (by omega)
  · rcases hE : insertAllBindings [(.str [0], (5 : Int))] with _ | h
    · have hs : (insertAllBindings [(.str [0], (5 : Int))]).isSome = true := by decide
      rw [hE] at hs
      exact absurd hs (by simp)
    · refine ⟨{ funcs := [], func_types := [], imports := [], exports := [],
                func_bindings := emptyHash, func_type_bindings := emptyHash,
                import_bindings := emptyHash, export_bindings := h }, .str [0], ?_⟩
      have hv : (insertAllBindings [(.str [0], (5 : Int))]).map
          (fun h2 => find_binding_index_by_name h2 (.str [0])) = some 5 := by decide
      rw [hE] at hv
      have hfind : find_binding_index_by_name h (.str [0]) = 5 := by simpa using hv
      simp only [wasm_get_export_by_name]
      rw [hfind]
      rw [if_neg (by norm_num)]
      rfl

theorem C9_export_by_name_witness :
    ∃ r, wasm_get_export_by_name
        { funcs := [], func_types := [], imports := [], exports := [],
          func_bindings := emptyHash, func_type_bindings := emptyHash,
          import_bindings := emptyHash, export_bindings := emptyHash }
        missingName = .ok r ∧
      (r = none ↔ find_binding_index_by_name emptyHash missingName = -1) := by
  obtain ⟨r, h1, h2, _⟩ := C9_export_by_name.1
    { funcs := [], func_types := [], imports := [], exports := [],
      func_bindings := emptyHash, func_type_bindings := emptyHash,
      import_bindings := emptyHash, export_bindings := emptyHash }
    missingName (by simp [emptyHash, bindingsList])
  exact ⟨r, h1, h2⟩

theorem find_chain_null :
    ∀ (fuel : Nat) (es : List WasmBindingHashEntry) (idx : Nat),
      find_binding_chain es .null fuel idx = -1 := by
  intro fuel
  induction fuel with
  | zero => intro es idx; rfl
  | succ f ih =>
    intro es idx
    rw [find_chain_succ, if_neg (by simp [sliceEq_null_right])]
    cases hn : (getE es idx).next with
    | none => rfl
    | some nidx =>
      rcases hfr : wasm_hash_entry_is_free (getE es nidx) with _ | _
      · simpa [hfr] using ih es nidx
      · simp [hfr]

/-- C10: a NULL-start slice is equal to no slice — not even to itself —
    because slice equality demands two non-NULL starts; hence looking up a
    NULL-start name in any binding table returns the not-found -1. -/
theorem C10_null_slice_lookup :
    (∀ h : WasmBindingHash, find_binding_index_by_name h .null = -1) ∧
    (∀ s : WasmStringSlice, wasm_string_slices_are_equal .null s = false ∧
      wasm_string_slices_are_equal s .null = false) ∧
    wasm_string_slices_are_equal .null .null = false := by
  refine ⟨?_, fun s => ⟨sliceEq_null_left s, sliceEq_null_right s⟩, rfl⟩
  intro h
  unfold find_binding_index_by_name
  split
  · rfl
  · exact find_chain_null _ _ _
